import Mathlib

/-!
# Sudoku solver (`src/solver/solver.cpp`)

A shallow embedding of the four functions of the solver, `isValidBoard`, `isSafe`,
`solve` and `solveSudoku`, and the properties of its specification.

* The board `uint8_t *b` is a list of cells; a read `b[k]` outside the list is a
  `fault` (undefined behaviour in C), and so is a read of a 10-entry presence array
  `row`/`col`/`box` outside `0..9`.
* `solve` mutates the board in place: the embedding passes the memory in and out.
  Besides the cells the memory carries the history of stores, which the program never
  reads; it is there so that statements about what is written can be made.
* `solve` is recursive; the embedding takes the number of stack frames it may use
  (`depth`) and answers `timeout` when they are used up. A run from cursor `(0, 0)` needs
  at most 82 frames, one per cell and one for the base case, and more frames never change
  a result (`solve_mono`).
* The cursor `int r, c` starts at `(0, 0)` and is only ever incremented, the candidate
  `uint8_t v` runs over `1..9`: no arithmetic wraps, and they are natural numbers here.
-/

set_option maxRecDepth 100000

namespace Sudoku

/-! ## Outcomes and memory -/

/-- Result of running a fragment of the program: it ran to the end with a value, it made
an out-of-bounds array access, or it needed more stack frames than it was given. -/
inductive Outcome (α : Type) where
  | done (a : α)
  | fault
  | timeout
deriving DecidableEq, Repr

/-- The board buffer together with the history of stores made to it, most recent first,
each entry being `(index, value)`. -/
structure Mem where
  cells : List Nat
  writes : List (Nat × Nat)
deriving DecidableEq, Repr

/-- The statement `b[i] = v`. -/
def store (m : Mem) (i v : Nat) : Outcome Mem :=
  if i < m.cells.length then .done ⟨m.cells.set i v, (i, v) :: m.writes⟩ else .fault

/-- A `for` loop, over the values `xs` of its counter, whose body either falls through
(`done true`) or executes `return false` (`done false`). The value is `done true` when
the loop runs to its end. -/
def forAll {α : Type} (body : α → Outcome Bool) : List α → Outcome Bool
  | [] => .done true
  | x :: xs =>
    match body x with
    | .done true => forAll body xs
    | o => o

/-- A `for` loop that carries local state `s` through its iterations; the body yields the
next state `done (some s1)`, or `done none` when it executes `return false`. -/
def forState {α σ : Type} (body : α → σ → Outcome (Option σ)) :
    List α → σ → Outcome (Option σ)
  | [], s => .done (some s)
  | x :: xs, s =>
    match body x s with
    | .done (some s1) => forState body xs s1
    | o => o

/-! ## `isValidBoard` -/

/-- The initialiser `bool row[10] = {false}`. -/
def noMarks : List Bool := List.replicate 10 false

/-- The block `if (x != 0) { if (m[x]) return false; m[x] = true; }` on a presence
array `m`. -/
def mark (m : List Bool) (x : Nat) : Outcome (Option (List Bool)) :=
  if x ≠ 0 then
    match m[x]? with
    | none => .fault
    | some true => .done none
    | some false => .done (some (m.set x true))
  else .done (some m)

/-- Body of the loop over `j` at lines 14-25; the state is the pair `(row, col)`. -/
def rowColStep (b : List Nat) (i j : Nat) (s : List Bool × List Bool) :
    Outcome (Option (List Bool × List Bool)) :=
  match b[i * 9 + j]? with
  | none => .fault
  | some rv =>
    match b[j * 9 + i]? with
    | none => .fault
    | some cv =>
      match mark s.1 rv with
      | .done (some row) =>
        match mark s.2 cv with
        | .done (some col) => .done (some (row, col))
        | .done none => .done none
        | .fault => .fault
        | .timeout => .timeout
      | .done none => .done none
      | .fault => .fault
      | .timeout => .timeout

/-- Body of the innermost loop at lines 33-39; the state is `box`. -/
def boxStep (b : List Nat) (br bc i j : Nat) (box : List Bool) :
    Outcome (Option (List Bool)) :=
  match b[(br + i) * 9 + (bc + j)]? with
  | none => .fault
  | some v => mark box v

/-- Whether a stateful loop ran to its end: `none` is a `return false`. -/
def fellThrough {σ : Type} : Outcome (Option σ) → Outcome Bool
  | .done (some _) => .done true
  | .done none => .done false
  | .fault => .fault
  | .timeout => .timeout

/-- The function `isValidBoard`: the rows-and-columns pass, then the boxes pass. -/
def isValidBoard (b : List Nat) : Outcome Bool :=
  match forAll (fun i => fellThrough (forState (rowColStep b i) (List.range 9) (noMarks, noMarks)))
      (List.range 9) with
  | .done true =>
    forAll (fun br => forAll (fun bc =>
        fellThrough (forState (fun i box => forState (boxStep b br bc i) (List.range 3) box)
          (List.range 3) noMarks))
      [0, 3, 6]) [0, 3, 6]
  | o => o

/-! ## `isSafe` -/

/-- The statement `if (b[k] == v) return false;`. -/
def cellDiffers (b : List Nat) (k v : Nat) : Outcome Bool :=
  match b[k]? with
  | none => .fault
  | some x => if x = v then .done false else .done true

/-- The function `isSafe`: row loop, column loop, then the box loops. -/
def isSafe (b : List Nat) (r c v : Nat) : Outcome Bool :=
  match forAll (fun j => cellDiffers b (r * 9 + j) v) (List.range 9) with
  | .done true =>
    match forAll (fun i => cellDiffers b (i * 9 + c) v) (List.range 9) with
    | .done true =>
      let sr := (r / 3) * 3
      let sc := (c / 3) * 3
      forAll (fun i => forAll (fun j => cellDiffers b ((sr + i) * 9 + (sc + j)) v)
        (List.range 3)) (List.range 3)
    | o => o
  | o => o

/-! ## `solve` and `solveSudoku` -/

/-- The values of `v` in `for (uint8_t v = 1; v <= 9; ++v)`. -/
def candidates : List Nat := [1, 2, 3, 4, 5, 6, 7, 8, 9]

/-- The candidate loop of `solve` (lines 68-75) at cell `(r, c)`, over the remaining
candidates; `next` is the recursive call `solve(b, nr, nc)`. -/
def tryCandidates (next : Mem → Outcome (Bool × Mem)) (r c : Nat) :
    List Nat → Mem → Outcome (Bool × Mem)
  | [], m => .done (false, m)
  | v :: vs, m =>
    match isSafe m.cells r c v with
    | .done true =>
      match store m (r * 9 + c) v with
      | .done m1 =>
        match next m1 with
        | .done (true, m2) => .done (true, m2)
        | .done (false, m2) =>
          match store m2 (r * 9 + c) 0 with
          | .done m3 => tryCandidates next r c vs m3
          | .fault => .fault
          | .timeout => .timeout
        | .fault => .fault
        | .timeout => .timeout
      | .fault => .fault
      | .timeout => .timeout
    | .done false => tryCandidates next r c vs m
    | .fault => .fault
    | .timeout => .timeout

/-- The cursor `(nr, nc)` computed at lines 62-63. -/
def nextCursor (r c : Nat) : Nat × Nat :=
  if c + 1 = 9 then (r + 1, 0) else (r, c + 1)

/-- The function `solve`, given `depth` stack frames. -/
def solve : Nat → Mem → Nat → Nat → Outcome (Bool × Mem)
  | 0, _, _, _ => .timeout
  | depth + 1, m, r, c =>
    if r = 9 then .done (true, m)
    else
      match m.cells[r * 9 + c]? with
      | none => .fault
      | some cur =>
        if cur ≠ 0 then solve depth m (nextCursor r c).1 (nextCursor r c).2
        else
          tryCandidates (fun m1 => solve depth m1 (nextCursor r c).1 (nextCursor r c).2)
            r c candidates m

/-- The exported function `solveSudoku`, given `depth` stack frames for the search. -/
def solveSudoku (depth : Nat) (board : Mem) : Outcome (Nat × Mem) :=
  match isValidBoard board.cells with
  | .done false => .done (0, board)
  | .done true =>
    match solve depth board 0 0 with
    | .done (found, m) => .done (if found then 1 else 0, m)
    | .fault => .fault
    | .timeout => .timeout
  | .fault => .fault
  | .timeout => .timeout

/-! ## The recursion of the specification over a linear cursor -/

/-- The recursion of the specification, over a linear cursor `p` in `0..80` that stands
for row `p / 9` and column `p % 9`: success once the cursor is past the last position,
a non-empty cell is skipped, an empty cell tries the candidates and recurses at `p + 1`.
The candidate loop is that of `solve`, at row `p / 9` and column `p % 9`; only the cursor
differs. -/
def solveLinear : Nat → Mem → Nat → Outcome (Bool × Mem)
  | 0, _, _ => .timeout
  | depth + 1, m, p =>
    if 81 ≤ p then .done (true, m)
    else
      match m.cells[p]? with
      | none => .fault
      | some cur =>
        if cur ≠ 0 then solveLinear depth m (p + 1)
        else tryCandidates (fun m1 => solveLinear depth m1 (p + 1)) (p / 9) (p % 9) candidates m

/-! ## The vocabulary of the specification -/

/-- The value of cell `(r, c)`, at linear position `r * 9 + c`. -/
def cellAt (g : List Nat) (r c : Nat) : Nat := (g[r * 9 + c]?).getD 0

/-- Within every row the non-empty values are pairwise distinct. -/
def RowsDistinct (g : List Nat) : Prop :=
  ∀ r < 9, ∀ c1 < 9, ∀ c2 < 9, c1 ≠ c2 → cellAt g r c1 ≠ 0 → cellAt g r c1 ≠ cellAt g r c2

/-- Within every column the non-empty values are pairwise distinct. -/
def ColsDistinct (g : List Nat) : Prop :=
  ∀ c < 9, ∀ r1 < 9, ∀ r2 < 9, r1 ≠ r2 → cellAt g r1 c ≠ 0 → cellAt g r1 c ≠ cellAt g r2 c

/-- Within every 3x3 block, with origin `(br, bc)` for `br, bc` in `{0, 3, 6}`, the
non-empty values are pairwise distinct. -/
def BlocksDistinct (g : List Nat) : Prop :=
  ∀ br ∈ [0, 3, 6], ∀ bc ∈ [0, 3, 6], ∀ i1 < 3, ∀ j1 < 3, ∀ i2 < 3, ∀ j2 < 3,
    (i1 ≠ i2 ∨ j1 ≠ j2) → cellAt g (br + i1) (bc + j1) ≠ 0 →
      cellAt g (br + i1) (bc + j1) ≠ cellAt g (br + i2) (bc + j2)

/-- Row, column and block distinctness together. -/
def Distinct (g : List Nat) : Prop := RowsDistinct g ∧ ColsDistinct g ∧ BlocksDistinct g

/-- An 81-cell grid whose cells are all in `0..9`. -/
def WellFormed (g : List Nat) : Prop := g.length = 81 ∧ ∀ x ∈ g, x ≤ 9

/-- An 81-cell grid of arbitrary bytes. -/
def ByteGrid (g : List Nat) : Prop := g.length = 81 ∧ ∀ x ∈ g, x ≤ 255

/-- Every cell of `s` holds a digit `1..9`. -/
def Filled (s : List Nat) : Prop := ∀ x ∈ s, 1 ≤ x ∧ x ≤ 9

/-- The grid `s` holds the value of `g` at every non-empty cell of `g`. -/
def Agrees (g s : List Nat) : Prop :=
  ∀ r < 9, ∀ c < 9, cellAt g r c ≠ 0 → cellAt s r c = cellAt g r c

/-- A complete valid Sudoku solution. -/
def Solved (s : List Nat) : Prop := s.length = 81 ∧ Filled s ∧ Distinct s

/-- The grid `s` is a completion of `g`. -/
def Completion (g s : List Nat) : Prop := Solved s ∧ Agrees g s

set_option synthInstance.maxSize 2000 in
set_option synthInstance.maxHeartbeats 400000 in
instance decRowsDistinct (g : List Nat) : Decidable (RowsDistinct g) := by
  unfold RowsDistinct; infer_instance

set_option synthInstance.maxSize 2000 in
set_option synthInstance.maxHeartbeats 400000 in
instance decColsDistinct (g : List Nat) : Decidable (ColsDistinct g) := by
  unfold ColsDistinct; infer_instance

set_option synthInstance.maxSize 2000 in
set_option synthInstance.maxHeartbeats 400000 in
instance decBlocksDistinct (g : List Nat) : Decidable (BlocksDistinct g) := by
  unfold BlocksDistinct; infer_instance

instance decDistinct (g : List Nat) : Decidable (Distinct g) := by
  unfold Distinct; infer_instance

instance decWellFormed (g : List Nat) : Decidable (WellFormed g) := by
  unfold WellFormed; infer_instance

instance decByteGrid (g : List Nat) : Decidable (ByteGrid g) := by
  unfold ByteGrid; infer_instance

instance decFilled (s : List Nat) : Decidable (Filled s) := by
  unfold Filled; infer_instance

instance decAgrees (g s : List Nat) : Decidable (Agrees g s) := by
  unfold Agrees; infer_instance

instance decSolved (s : List Nat) : Decidable (Solved s) := by
  unfold Solved; infer_instance

instance decCompletion (g s : List Nat) : Decidable (Completion g s) := by
  unfold Completion; infer_instance

/-- The lexicographic order on 81-cell grids read in row-major order: `b` is `s`, or at the
first position where they differ `b` holds the smaller value. -/
def LexLe (b s : List Nat) : Prop :=
  b = s ∨ ∃ k < 81, (∀ i < k, b[i]? = s[i]?) ∧ (b[k]?).getD 0 < (s[k]?).getD 0

instance decLexLe (b s : List Nat) : Decidable (LexLe b s) := by
  unfold LexLe; infer_instance

/-- The cells after the stores `ws`, most recent first, have been made to the cells `g`. -/
def replay (g : List Nat) : List (Nat × Nat) → List Nat
  | [] => g
  | x :: ws => (replay g ws).set x.1 x.2

/-! ## The vocabulary of the proofs -/

/-- No cell of row `r`, of column `c` or of the block of `(r, c)` holds `v`. -/
def Free (b : List Nat) (r c v : Nat) : Prop :=
  (∀ j < 9, cellAt b r j ≠ v) ∧ (∀ i < 9, cellAt b i c ≠ v) ∧
    ∀ i < 3, ∀ j < 3, cellAt b (r / 3 * 3 + i) (c / 3 * 3 + j) ≠ v

/-- No cell other than `(r, c)` itself, of row `r`, of column `c` or of the block of
`(r, c)`, holds `v`. -/
def FreeElsewhere (b : List Nat) (r c v : Nat) : Prop :=
  (∀ j < 9, j ≠ c → cellAt b r j ≠ v) ∧ (∀ i < 9, i ≠ r → cellAt b i c ≠ v) ∧
    ∀ i < 3, ∀ j < 3, (r / 3 * 3 + i ≠ r ∨ c / 3 * 3 + j ≠ c) →
      cellAt b (r / 3 * 3 + i) (c / 3 * 3 + j) ≠ v

instance decFree (b : List Nat) (r c v : Nat) : Decidable (Free b r c v) := by
  unfold Free; infer_instance

instance decFreeElsewhere (b : List Nat) (r c v : Nat) : Decidable (FreeElsewhere b r c v) := by
  unfold FreeElsewhere; infer_instance

/-- No non-empty value of `vs` is marked in `m`, and the non-empty values of `vs` are
pairwise distinct. -/
def Clean (m : List Bool) (vs : List Nat) : Prop :=
  (∀ x ∈ vs, x ≠ 0 → m[x]? ≠ some true) ∧ vs.Pairwise (fun x y => x ≠ 0 → x ≠ y)

/-- Acceptance of a sequence of `(row value, column value)` pairs by the pair of presence
arrays `(row, col)`. -/
def CleanPair (s : List Bool × List Bool) (ps : List (Nat × Nat)) : Prop :=
  Clean s.1 (ps.map Prod.fst) ∧ Clean s.2 (ps.map Prod.snd)

/-- What a loop that consumes the values `vs` from state `s` has established when it
stops with `o`: an early `return false` means that no continuation `ws` of `vs` is
accepted (`C`), a fall-through with state `s1` means that the rest is judged from `s1`. -/
def Tracks {σ β : Type} (C : σ → List β → Prop) (Inv : σ → Prop) (s : σ) (vs : List β) :
    Option σ → Prop
  | none => ∀ ws, ¬ C s (vs ++ ws)
  | some s1 => Inv s1 ∧ ∀ ws, C s (vs ++ ws) ↔ C s1 ws

/-- What a run of `solve` from linear cursor position `p` on the cells `b` has done when it
returns `found` with cells `b1` after the stores `ws`; `noSol` is what a `false` result
establishes. -/
structure Post (p : Nat) (b : List Nat) (found : Bool) (b1 : List Nat) (ws : List (Nat × Nat))
    (noSol : Prop) : Prop where
  length : b1.length = 81
  writes : ∀ w ∈ ws, p ≤ w.1 ∧ w.1 < 81 ∧ w.2 ≤ 9 ∧ b[w.1]? = some 0
  cells : ∀ k, b1[k]? = b[k]? ∨ (p ≤ k ∧ b[k]? = some 0 ∧ ∃ v, 1 ≤ v ∧ v ≤ 9 ∧ b1[k]? = some v)
  failure : found = false → b1 = b ∧ noSol
  success : found = true →
    (∀ k, p ≤ k → k < 81 → b1[k]? ≠ some 0) ∧ (Distinct b → Distinct b1)

/-- A run that makes the stores `ws` from the cells `b` ends with the 81 cells `b1`, and
after each of its stores the cells are free of duplicates. -/
def Trail (b : List Nat) (ws : List (Nat × Nat)) (b1 : List Nat) : Prop :=
  b1 = replay b ws ∧ b1.length = 81 ∧ ∀ ws1 ws2, ws = ws1 ++ ws2 → Distinct (replay b ws2)

/-- The order on grids read from linear position `p` on, in row-major order: from `p` on
the grids hold the same values, or at the first position from `p` on where they differ `b`
holds the smaller value. -/
def LexFrom (p : Nat) (b s : List Nat) : Prop :=
  (∀ k, p ≤ k → k < 81 → b[k]? = s[k]?) ∨
    ∃ k, p ≤ k ∧ k < 81 ∧ (∀ i, p ≤ i → i < k → b[i]? = s[i]?) ∧
      (b[k]?).getD 0 < (s[k]?).getD 0

/-! ## Concrete grids -/

/-- The grid with all 81 cells empty. -/
def emptyGrid : List Nat := List.replicate 81 0

/-- A complete valid grid. -/
def solvedGrid : List Nat :=
  [1, 2, 3, 4, 5, 6, 7, 8, 9,
   4, 5, 6, 7, 8, 9, 1, 2, 3,
   7, 8, 9, 1, 2, 3, 4, 5, 6,
   2, 1, 4, 3, 6, 5, 8, 9, 7,
   3, 6, 5, 8, 9, 7, 2, 1, 4,
   8, 9, 7, 2, 1, 4, 3, 6, 5,
   5, 3, 1, 6, 4, 2, 9, 7, 8,
   6, 4, 2, 9, 7, 8, 5, 3, 1,
   9, 7, 8, 5, 3, 1, 6, 4, 2]

/-- The grid `solvedGrid` with the last row emptied. -/
def openGrid : List Nat := solvedGrid.take 72 ++ List.replicate 9 0

/-- A grid without duplicates that has no completion: cell `(0, 8)` sees `1..8` in its row
and `9` in its column. -/
def deadEndGrid : List Nat :=
  [1, 2, 3, 4, 5, 6, 7, 8, 0,
   0, 0, 0, 0, 0, 0, 0, 0, 9] ++ List.replicate 63 0

/-- The grid of scenario B: `5` in cells `(0, 0)` and `(0, 1)`, the rest empty. -/
def twoFivesGrid : List Nat := 5 :: 5 :: List.replicate 79 0

/-- The empty grid with the byte `10` in cell `(0, 0)`. -/
def strayByteGrid : List Nat := 10 :: List.replicate 80 0

/-- A fully-filled grid with a duplicate: `solvedGrid` with `1` written over the `2` of
cell `(0, 1)`, so that row 0 holds `1` twice. -/
def dupRowGrid : List Nat := solvedGrid.set 1 1

/-! ## Loops -/

theorem forAll_spec {α : Type} (body : α → Outcome Bool) (xs : List α)
    (h : ∀ x ∈ xs, ∃ t, body x = .done t) :
    ∃ t, forAll body xs = .done t ∧ (t = true ↔ ∀ x ∈ xs, body x = .done true) := by
  induction xs with
  | nil => exact ⟨true, rfl, by simp⟩
  | cons x xs ih =>
    obtain ⟨t, ht⟩ := h x (List.mem_cons_self _ _)
    obtain ⟨u, hu, hiff⟩ := ih (fun y hy => h y (List.mem_cons_of_mem _ hy))
    cases t with
    | true =>
      refine ⟨u, by simp [forAll, ht, hu], ?_⟩
      simp [hiff, ht]
    | false =>
      refine ⟨false, by simp [forAll, ht], ?_⟩
      simp [ht]

theorem forAll_iff {α : Type} (body : α → Outcome Bool) (xs : List α) (P : α → Prop)
    (h : ∀ x ∈ xs, ∃ t, body x = .done t ∧ (t = true ↔ P x)) :
    ∃ t, forAll body xs = .done t ∧ (t = true ↔ ∀ x ∈ xs, P x) := by
  obtain ⟨t, ht, hiff⟩ := forAll_spec body xs (fun x hx => (h x hx).imp fun _ hh => hh.1)
  refine ⟨t, ht, hiff.trans ?_⟩
  constructor
  · intro hall x hx
    obtain ⟨u, hu, hP⟩ := h x hx
    have := hall x hx
    rw [hu] at this
    exact hP.1 (by simpa using this)
  · intro hall x hx
    obtain ⟨u, hu, hP⟩ := h x hx
    rw [hu, hP.2 (hall x hx)]

theorem forState_tracks {α σ β : Type} (C : σ → List β → Prop) (Inv : σ → Prop)
    (body : α → σ → Outcome (Option σ)) (val : α → List β) (xs : List α)
    (hbody : ∀ x ∈ xs, ∀ s, Inv s → ∃ o, body x s = .done o ∧ Tracks C Inv s (val x) o) :
    ∀ s, Inv s → ∃ o, forState body xs s = .done o ∧ Tracks C Inv s (xs.flatMap val) o := by
  induction xs with
  | nil =>
    intro s hs
    exact ⟨some s, rfl, hs, fun ws => by simp⟩
  | cons x xs ih =>
    intro s hs
    obtain ⟨o, ho, ht⟩ := hbody x (List.mem_cons_self _ _) s hs
    cases o with
    | none =>
      refine ⟨none, by simp [forState, ho], ?_⟩
      intro ws
      have := ht (xs.flatMap val ++ ws)
      simpa [List.flatMap_cons, List.append_assoc] using this
    | some s1 =>
      obtain ⟨o2, ho2, ht2⟩ := ih (fun y hy => hbody y (List.mem_cons_of_mem _ hy)) s1 ht.1
      refine ⟨o2, by simp [forState, ho, ho2], ?_⟩
      cases o2 with
      | none =>
        intro ws hC
        rw [List.flatMap_cons, List.append_assoc] at hC
        exact ht2 ws ((ht.2 _).1 hC)
      | some s2 =>
        refine ⟨ht2.1, fun ws => ?_⟩
        rw [List.flatMap_cons, List.append_assoc]
        exact (ht.2 _).trans (ht2.2 ws)

theorem fellThrough_tracks {σ β : Type} {C : σ → List β → Prop} {Inv : σ → Prop} {s : σ}
    {vs : List β} {o : Outcome (Option σ)} {p : Option σ} (ho : o = .done p)
    (ht : Tracks C Inv s vs p) (hnil : ∀ s1, Inv s1 → C s1 []) :
    ∃ t, fellThrough o = .done t ∧ (t = true ↔ C s vs) := by
  subst ho
  cases p with
  | none =>
    refine ⟨false, rfl, ?_⟩
    have := ht []
    simp only [List.append_nil] at this
    simp [this]
  | some s1 =>
    refine ⟨true, rfl, ?_⟩
    have := (ht.2 []).2 (hnil s1 ht.1)
    simp only [List.append_nil] at this
    simp [this]

/-! ## Cells -/

theorem cellDiffers_spec (b : List Nat) (k v : Nat) (hk : k < b.length) :
    cellDiffers b k v = .done (decide ((b[k]?).getD 0 ≠ v)) := by
  by_cases h : b[k] = v <;> simp [cellDiffers, List.getElem?_eq_getElem hk, h]

theorem cellAt_le (b : List Nat) (hb : WellFormed b) (r c : Nat) : cellAt b r c ≤ 9 := by
  unfold cellAt
  cases h : b[r * 9 + c]? with
  | none => simp
  | some x =>
    obtain ⟨hk, hx⟩ := List.getElem?_eq_some_iff.1 h
    simpa [← hx] using hb.2 _ (List.getElem_mem hk)

theorem getElem?_cellAt (b : List Nat) (r c : Nat) (h : r * 9 + c < b.length) :
    b[r * 9 + c]? = some (cellAt b r c) := by
  simp [cellAt, List.getElem?_eq_getElem h]

theorem cellAt_eq_zero_iff (b : List Nat) (r c : Nat) (h : r * 9 + c < b.length) :
    cellAt b r c = 0 ↔ b[r * 9 + c]? = some 0 := by
  simp [cellAt, List.getElem?_eq_getElem h]

theorem cellAt_set (b : List Nat) (hb : b.length = 81) (r c v r1 c1 : Nat) (hr : r < 9)
    (hc : c < 9) (hc1 : c1 < 9) :
    cellAt (b.set (r * 9 + c) v) r1 c1 = if r1 = r ∧ c1 = c then v else cellAt b r1 c1 := by
  unfold cellAt
  rw [List.getElem?_set]
  by_cases h : r1 = r ∧ c1 = c
  · obtain ⟨rfl, rfl⟩ := h
    have : r1 * 9 + c1 < b.length := by omega
    simp [this]
  · have : r * 9 + c ≠ r1 * 9 + c1 := by omega
    simp [this, h]

theorem set_zero_of_empty (l : List Nat) (p : Nat) (h : l[p]? = some 0) : l.set p 0 = l := by
  apply List.ext_getElem?
  intro k
  rw [List.getElem?_set]
  split
  · next hk =>
    subst hk
    obtain ⟨hp, _⟩ := List.getElem?_eq_some_iff.1 h
    simp [hp, h]
  · rfl

theorem store_eq (m : Mem) (i v : Nat) (h : i < m.cells.length) :
    store m i v = .done ⟨m.cells.set i v, (i, v) :: m.writes⟩ := by
  simp [store, h]

theorem ext_of_cellAt (s t : List Nat) (hs : s.length = 81) (ht : t.length = 81)
    (h : ∀ r < 9, ∀ c < 9, cellAt s r c = cellAt t r c) : s = t := by
  apply List.ext_getElem?
  intro k
  by_cases hk : k < 81
  · have e := h (k / 9) (by omega) (k % 9) (by omega)
    have ek : k / 9 * 9 + k % 9 = k := by omega
    have h1 : k < s.length := by omega
    have h2 : k < t.length := by omega
    unfold cellAt at e
    rw [ek, List.getElem?_eq_getElem h1, List.getElem?_eq_getElem h2] at e
    rw [List.getElem?_eq_getElem h1, List.getElem?_eq_getElem h2]
    simpa using e
  · have h1 : s.length ≤ k := by omega
    have h2 : t.length ≤ k := by omega
    rw [List.getElem?_eq_none h1, List.getElem?_eq_none h2]

theorem mem_origins {x : Nat} (h : x ∈ [0, 3, 6]) : x = 0 ∨ x = 3 ∨ x = 6 := by
  simpa using h

/-! ## `isSafe` accepts a value exactly when its row, column and block are free of it -/

theorem isSafe_spec (b : List Nat) (r c v : Nat) (hb : b.length = 81) (hr : r < 9) (hc : c < 9) :
    ∃ t, isSafe b r c v = .done t ∧ (t = true ↔ Free b r c v) := by
  have hrow : ∀ j ∈ List.range 9, cellDiffers b (r * 9 + j) v = .done (decide (cellAt b r j ≠ v)) := by
    intro j hj
    rw [List.mem_range] at hj
    exact cellDiffers_spec b _ v (by omega)
  have hcol : ∀ i ∈ List.range 9, cellDiffers b (i * 9 + c) v = .done (decide (cellAt b i c ≠ v)) := by
    intro i hi
    rw [List.mem_range] at hi
    exact cellDiffers_spec b _ v (by omega)
  have hbox : ∀ i ∈ List.range 3, ∀ j ∈ List.range 3,
      cellDiffers b ((r / 3 * 3 + i) * 9 + (c / 3 * 3 + j)) v
        = .done (decide (cellAt b (r / 3 * 3 + i) (c / 3 * 3 + j) ≠ v)) := by
    intro i hi j hj
    rw [List.mem_range] at hi hj
    exact cellDiffers_spec b _ v (by omega)
  obtain ⟨t1, h1, i1⟩ := forAll_spec (fun j => cellDiffers b (r * 9 + j) v) (List.range 9)
    (fun j hj => ⟨_, hrow j hj⟩)
  obtain ⟨t2, h2, i2⟩ := forAll_spec (fun i => cellDiffers b (i * 9 + c) v) (List.range 9)
    (fun i hi => ⟨_, hcol i hi⟩)
  have hin : ∀ i ∈ List.range 3, ∃ t,
      forAll (fun j => cellDiffers b ((r / 3 * 3 + i) * 9 + (c / 3 * 3 + j)) v) (List.range 3)
        = .done t ∧ (t = true ↔ ∀ j < 3, cellAt b (r / 3 * 3 + i) (c / 3 * 3 + j) ≠ v) := by
    intro i hi
    obtain ⟨t, ht, it⟩ := forAll_spec
      (fun j => cellDiffers b ((r / 3 * 3 + i) * 9 + (c / 3 * 3 + j)) v) (List.range 3)
      (fun j hj => ⟨_, hbox i hi j hj⟩)
    refine ⟨t, ht, it.trans ?_⟩
    constructor
    · intro h j hj
      have := h j (List.mem_range.2 hj)
      rw [hbox i hi j (List.mem_range.2 hj)] at this
      simpa using this
    · intro h j hj
      rw [hbox i hi j hj]
      simpa using h j (List.mem_range.1 hj)
  obtain ⟨t3, h3, i3⟩ := forAll_spec
    (fun i => forAll (fun j => cellDiffers b ((r / 3 * 3 + i) * 9 + (c / 3 * 3 + j)) v)
      (List.range 3)) (List.range 3)
    (fun i hi => (hin i hi).imp fun _ h => h.1)
  have e1 : t1 = true ↔ ∀ j < 9, cellAt b r j ≠ v := by
    rw [i1]
    constructor
    · intro h j hj
      have := h j (List.mem_range.2 hj)
      rw [hrow j (List.mem_range.2 hj)] at this
      simpa using this
    · intro h j hj
      rw [hrow j hj]
      simpa using h j (List.mem_range.1 hj)
  have e2 : t2 = true ↔ ∀ i < 9, cellAt b i c ≠ v := by
    rw [i2]
    constructor
    · intro h i hi
      have := h i (List.mem_range.2 hi)
      rw [hcol i (List.mem_range.2 hi)] at this
      simpa using this
    · intro h i hi
      rw [hcol i hi]
      simpa using h i (List.mem_range.1 hi)
  have e3 : t3 = true ↔ ∀ i < 3, ∀ j < 3, cellAt b (r / 3 * 3 + i) (c / 3 * 3 + j) ≠ v := by
    rw [i3]
    constructor
    · intro h i hi
      obtain ⟨t, ht, it⟩ := hin i (List.mem_range.2 hi)
      have := h i (List.mem_range.2 hi)
      rw [ht] at this
      exact it.1 (by simpa using this)
    · intro h i hi
      obtain ⟨t, ht, it⟩ := hin i hi
      rw [ht, it.2 (h i (List.mem_range.1 hi))]
  unfold isSafe Free
  rw [h1]
  cases t1 with
  | false => exact ⟨false, rfl, by simp at e1; simpa using fun h => absurd h (by simpa using e1)⟩
  | true =>
    simp only [h2]
    cases t2 with
    | false => exact ⟨false, rfl, by simp at e2; simpa using fun _ h => absurd h (by simpa using e2)⟩
    | true =>
      refine ⟨t3, h3, ?_⟩
      rw [e3]
      simp at e1 e2
      exact ⟨fun h => ⟨e1, e2, h⟩, fun h => h.2.2⟩

/-! ## `isValidBoard` accepts exactly the grids without duplicates -/

theorem mark_tracks (m : List Bool) (v : Nat) (hm : m.length = 10) (hv : v ≤ 9) :
    ∃ o, mark m v = .done o ∧ Tracks Clean (fun m1 => m1.length = 10) m [v] o := by
  by_cases h0 : v = 0
  · subst h0
    refine ⟨some m, by simp [mark], hm, fun ws => ?_⟩
    simp [Clean]
  · have hlt : v < m.length := by omega
    cases hmv : m[v] with
    | true =>
      refine ⟨none, by simp [mark, h0, List.getElem?_eq_getElem hlt, hmv], ?_⟩
      intro ws hC
      exact hC.1 v (by simp) h0 (by simp [List.getElem?_eq_getElem hlt, hmv])
    | false =>
      refine ⟨some (m.set v true), by simp [mark, h0, List.getElem?_eq_getElem hlt, hmv], ?_, ?_⟩
      · simp [hm]
      · intro ws
        simp only [Clean, List.singleton_append, List.mem_cons, List.pairwise_cons,
          List.getElem?_set, hlt, if_true]
        constructor
        · rintro ⟨h1, h2, h3⟩
          refine ⟨fun x hx hx0 => ?_, h3⟩
          have hne : v ≠ x := h2 x hx h0
          simp only [hne, if_false]
          exact h1 x (Or.inr hx) hx0
        · rintro ⟨h1, h3⟩
          refine ⟨?_, ?_, h3⟩
          · rintro x (rfl | hx) hx0
            · simp [List.getElem?_eq_getElem hlt, hmv]
            · have := h1 x hx hx0
              by_cases hvx : v = x
              · simp [hvx] at this
              · simpa [hvx] using this
          · intro y hy _ hvy
            by_cases hy0 : y = 0
            · omega
            · have := h1 y hy hy0
              simp [hvy] at this

theorem rowColStep_tracks (b : List Nat) (hb : WellFormed b) (i j : Nat) (hi : i < 9) (hj : j < 9)
    (s : List Bool × List Bool) (hs : s.1.length = 10 ∧ s.2.length = 10) :
    ∃ o, rowColStep b i j s = .done o ∧
      Tracks CleanPair (fun s1 => s1.1.length = 10 ∧ s1.2.length = 10) s
        [(cellAt b i j, cellAt b j i)] o := by
  have e1 := getElem?_cellAt b i j (by rw [hb.1]; omega)
  have e2 := getElem?_cellAt b j i (by rw [hb.1]; omega)
  obtain ⟨o1, ho1, ht1⟩ := mark_tracks s.1 (cellAt b i j) hs.1 (cellAt_le b hb i j)
  obtain ⟨o2, ho2, ht2⟩ := mark_tracks s.2 (cellAt b j i) hs.2 (cellAt_le b hb j i)
  cases o1 with
  | none =>
    refine ⟨none, by simp [rowColStep, e1, e2, ho1], ?_⟩
    intro ws hC
    exact ht1 (ws.map Prod.fst) (by simpa using hC.1)
  | some row =>
    cases o2 with
    | none =>
      refine ⟨none, by simp [rowColStep, e1, e2, ho1, ho2], ?_⟩
      intro ws hC
      exact ht2 (ws.map Prod.snd) (by simpa using hC.2)
    | some col =>
      refine ⟨some (row, col), by simp [rowColStep, e1, e2, ho1, ho2], ⟨ht1.1, ht2.1⟩, ?_⟩
      intro ws
      have a1 := ht1.2 (ws.map Prod.fst)
      have a2 := ht2.2 (ws.map Prod.snd)
      simp only [List.singleton_append] at a1 a2
      simp only [CleanPair, List.singleton_append, List.map_cons, a1, a2]

theorem boxStep_tracks (b : List Nat) (hb : WellFormed b) (br bc i j : Nat)
    (h : (br + i) * 9 + (bc + j) < 81) (box : List Bool) (hbox : box.length = 10) :
    ∃ o, boxStep b br bc i j box = .done o ∧
      Tracks Clean (fun m1 => m1.length = 10) box [cellAt b (br + i) (bc + j)] o := by
  have e := getElem?_cellAt b (br + i) (bc + j) (by rw [hb.1]; exact h)
  obtain ⟨o, ho, ht⟩ := mark_tracks box (cellAt b (br + i) (bc + j)) hbox (cellAt_le b hb _ _)
  exact ⟨o, by simp [boxStep, e, ho], ht⟩

theorem clean_noMarks (vs : List Nat) :
    Clean noMarks vs ↔ vs.Pairwise (fun x y => x ≠ 0 → x ≠ y) := by
  unfold Clean noMarks
  constructor
  · exact fun h => h.2
  · intro h
    refine ⟨fun x _ _ => ?_, h⟩
    rw [List.getElem?_replicate]
    split <;> simp

theorem pairwise_range_map (f : Nat → Nat) (n : Nat) :
    ((List.range n).map f).Pairwise (fun x y => x ≠ 0 → x ≠ y) ↔
      ∀ i < n, ∀ j < n, i ≠ j → f i ≠ 0 → f i ≠ f j := by
  rw [List.pairwise_iff_getElem]
  simp only [List.length_map, List.length_range, List.getElem_map, List.getElem_range]
  constructor
  · intro h i hi j hj hij h0 heq
    rcases Nat.lt_or_gt_of_ne hij with hlt | hgt
    · exact h i j hi hj hlt h0 heq
    · exact h j i hj hi hgt (by rw [← heq]; exact h0) heq.symm
  · intro h i j hi hj hlt
    exact h i hi j hj (Nat.ne_of_lt hlt)

theorem rowColPass_spec (b : List Nat) (hb : WellFormed b) (i : Nat) (hi : i < 9) :
    ∃ t, fellThrough (forState (rowColStep b i) (List.range 9) (noMarks, noMarks)) = .done t ∧
      (t = true ↔
        (∀ c1 < 9, ∀ c2 < 9, c1 ≠ c2 → cellAt b i c1 ≠ 0 → cellAt b i c1 ≠ cellAt b i c2) ∧
        (∀ r1 < 9, ∀ r2 < 9, r1 ≠ r2 → cellAt b r1 i ≠ 0 → cellAt b r1 i ≠ cellAt b r2 i)) := by
  obtain ⟨o, ho, ht⟩ := forState_tracks CleanPair (fun s1 => s1.1.length = 10 ∧ s1.2.length = 10)
    (rowColStep b i) (fun j => [(cellAt b i j, cellAt b j i)]) (List.range 9)
    (fun j hj s hs => rowColStep_tracks b hb i j hi (List.mem_range.1 hj) s hs)
    (noMarks, noMarks) (by simp [noMarks])
  obtain ⟨t, h1, h2⟩ := fellThrough_tracks ho ht
    (fun s1 _ => by simp [CleanPair, Clean])
  refine ⟨t, h1, h2.trans ?_⟩
  have e1 : ((List.range 9).flatMap fun j => [(cellAt b i j, cellAt b j i)]).map Prod.fst
      = (List.range 9).map (fun j => cellAt b i j) := rfl
  have e2 : ((List.range 9).flatMap fun j => [(cellAt b i j, cellAt b j i)]).map Prod.snd
      = (List.range 9).map (fun j => cellAt b j i) := rfl
  unfold CleanPair
  simp only [e1, e2, clean_noMarks, pairwise_range_map]

theorem boxPass_spec (b : List Nat) (hb : WellFormed b) (br bc : Nat) (hbr : br ≤ 6)
    (hbc : bc ≤ 6) :
    ∃ t, fellThrough (forState (fun i box => forState (boxStep b br bc i) (List.range 3) box)
        (List.range 3) noMarks) = .done t ∧
      (t = true ↔ ∀ i1 < 3, ∀ j1 < 3, ∀ i2 < 3, ∀ j2 < 3, (i1 ≠ i2 ∨ j1 ≠ j2) →
        cellAt b (br + i1) (bc + j1) ≠ 0 →
          cellAt b (br + i1) (bc + j1) ≠ cellAt b (br + i2) (bc + j2)) := by
  obtain ⟨o, ho, ht⟩ := forState_tracks Clean (fun m1 => m1.length = 10)
    (fun i box => forState (boxStep b br bc i) (List.range 3) box)
    (fun i => (List.range 3).flatMap fun j => [cellAt b (br + i) (bc + j)]) (List.range 3)
    (fun i hi s hs => forState_tracks Clean (fun m1 => m1.length = 10) (boxStep b br bc i)
      (fun j => [cellAt b (br + i) (bc + j)]) (List.range 3)
      (fun j hj s1 hs1 => boxStep_tracks b hb br bc i j
        (by have := List.mem_range.1 hi; have := List.mem_range.1 hj; omega) s1 hs1) s hs)
    noMarks (by simp [noMarks])
  obtain ⟨t, h1, h2⟩ := fellThrough_tracks ho ht (fun s1 _ => by simp [Clean])
  refine ⟨t, h1, h2.trans ?_⟩
  have e : ((List.range 3).flatMap fun i => (List.range 3).flatMap fun j =>
      [cellAt b (br + i) (bc + j)])
      = (List.range 9).map (fun k => cellAt b (br + k / 3) (bc + k % 3)) := rfl
  rw [e, clean_noMarks, pairwise_range_map]
  constructor
  · intro h i1 hi1 j1 hj1 i2 hi2 j2 hj2 hne
    have := h (3 * i1 + j1) (by omega) (3 * i2 + j2) (by omega) (by omega)
    have a1 : (3 * i1 + j1) / 3 = i1 := by omega
    have a2 : (3 * i1 + j1) % 3 = j1 := by omega
    have a3 : (3 * i2 + j2) / 3 = i2 := by omega
    have a4 : (3 * i2 + j2) % 3 = j2 := by omega
    simpa only [a1, a2, a3, a4] using this
  · intro h k1 hk1 k2 hk2 hne
    exact h (k1 / 3) (by omega) (k1 % 3) (by omega) (k2 / 3) (by omega) (k2 % 3) (by omega)
      (by omega)

/-- The validator never faults on a well-formed grid, and accepts exactly the grids whose
non-empty values are distinct in every row, column and block. -/
theorem isValidBoard_spec (b : List Nat) (hb : WellFormed b) :
    ∃ t, isValidBoard b = .done t ∧ (t = true ↔ Distinct b) := by
  obtain ⟨t1, h1, i1⟩ := forAll_iff
    (fun i => fellThrough (forState (rowColStep b i) (List.range 9) (noMarks, noMarks)))
    (List.range 9) _ (fun i hi => rowColPass_spec b hb i (List.mem_range.1 hi))
  obtain ⟨t2, h2, i2⟩ := forAll_iff
    (fun br => forAll (fun bc =>
        fellThrough (forState (fun i box => forState (boxStep b br bc i) (List.range 3) box)
          (List.range 3) noMarks)) [0, 3, 6]) [0, 3, 6] _
    (fun br hbr => forAll_iff _ [0, 3, 6] _ (fun bc hbc => boxPass_spec b hb br bc
      (by simp at hbr; omega) (by simp at hbc; omega)))
  have e1 : t1 = true ↔ RowsDistinct b ∧ ColsDistinct b := by
    rw [i1]
    constructor
    · intro h
      exact ⟨fun r hr => (h r (List.mem_range.2 hr)).1, fun c hc => (h c (List.mem_range.2 hc)).2⟩
    · intro h i hi
      exact ⟨h.1 i (List.mem_range.1 hi), h.2 i (List.mem_range.1 hi)⟩
  have e2 : t2 = true ↔ BlocksDistinct b := i2
  unfold isValidBoard Distinct
  rw [h1]
  cases t1 with
  | false =>
    refine ⟨false, rfl, ?_⟩
    simp only [Bool.false_eq_true, false_iff] at e1 ⊢
    exact fun h => e1 ⟨h.1, h.2.1⟩
  | true =>
    refine ⟨t2, h2, ?_⟩
    have := e1.1 rfl
    rw [e2]
    exact ⟨fun h => ⟨this.1, this.2, h⟩, fun h => h.2.2⟩

theorem distinct_of_isValidBoard (b : List Nat) (hb : WellFormed b)
    (h : isValidBoard b = .done true) : Distinct b := by
  obtain ⟨t, ht, hiff⟩ := isValidBoard_spec b hb
  rw [ht] at h
  cases h
  exact hiff.1 rfl

/-! ## Grids and their completions -/

/-- Placing a value that `isSafe` accepts into an empty cell keeps the grid free of
duplicates. -/
theorem distinct_set (b : List Nat) (hb : b.length = 81) (r c v : Nat) (hr : r < 9) (hc : c < 9)
    (hfree : Free b r c v) (hd : Distinct b) :
    Distinct (b.set (r * 9 + c) v) := by
  obtain ⟨hrow, hcol, hblk⟩ := hd
  obtain ⟨f1, f2, f3⟩ := hfree
  refine ⟨?_, ?_, ?_⟩
  · intro r1 hr1 c1 hc1 c2 hc2 hne
    rw [cellAt_set b hb r c v r1 c1 hr hc hc1, cellAt_set b hb r c v r1 c2 hr hc hc2]
    by_cases h1 : r1 = r ∧ c1 = c
    · obtain ⟨rfl, rfl⟩ := h1
      have h2 : ¬ (r1 = r1 ∧ c2 = c1) := fun h => hne h.2.symm
      rw [if_pos ⟨rfl, rfl⟩, if_neg h2]
      exact fun _ h => f1 c2 hc2 h.symm
    · by_cases h2 : r1 = r ∧ c2 = c
      · obtain ⟨rfl, rfl⟩ := h2
        rw [if_neg h1, if_pos ⟨rfl, rfl⟩]
        exact fun _ => f1 c1 hc1
      · rw [if_neg h1, if_neg h2]
        exact hrow r1 hr1 c1 hc1 c2 hc2 hne
  · intro c1 hc1 r1 hr1 r2 hr2 hne
    rw [cellAt_set b hb r c v r1 c1 hr hc hc1, cellAt_set b hb r c v r2 c1 hr hc hc1]
    by_cases h1 : r1 = r ∧ c1 = c
    · obtain ⟨rfl, rfl⟩ := h1
      have h2 : ¬ (r2 = r1 ∧ c1 = c1) := fun h => hne h.1.symm
      rw [if_pos ⟨rfl, rfl⟩, if_neg h2]
      exact fun _ h => f2 r2 hr2 h.symm
    · by_cases h2 : r2 = r ∧ c1 = c
      · obtain ⟨rfl, rfl⟩ := h2
        rw [if_neg h1, if_pos ⟨rfl, rfl⟩]
        exact fun _ => f2 r1 hr1
      · rw [if_neg h1, if_neg h2]
        exact hcol c1 hc1 r1 hr1 r2 hr2 hne
  · intro br hbr bc hbc i1 hi1 j1 hj1 i2 hi2 j2 hj2 hne
    have obr := mem_origins hbr
    have obc := mem_origins hbc
    rw [cellAt_set b hb r c v _ _ hr hc (by omega), cellAt_set b hb r c v _ _ hr hc (by omega)]
    by_cases h1 : br + i1 = r ∧ bc + j1 = c
    · have h2 : ¬ (br + i2 = r ∧ bc + j2 = c) := by omega
      have e1 : r / 3 * 3 = br := by omega
      have e2 : c / 3 * 3 = bc := by omega
      rw [if_pos h1, if_neg h2]
      intro _ h
      have := f3 i2 hi2 j2 hj2
      rw [e1, e2] at this
      exact this h.symm
    · by_cases h2 : br + i2 = r ∧ bc + j2 = c
      · have e1 : r / 3 * 3 = br := by omega
        have e2 : c / 3 * 3 = bc := by omega
        rw [if_neg h1, if_pos h2]
        intro _
        have := f3 i1 hi1 j1 hj1
        rw [e1, e2] at this
        exact this
      · rw [if_neg h1, if_neg h2]
        exact hblk br hbr bc hbc i1 hi1 j1 hj1 i2 hi2 j2 hj2 hne

/-- The value a completion holds at an empty cell is accepted by `isSafe`. -/
theorem free_of_completion (b s : List Nat) (hs : Completion b s) (r c : Nat) (hr : r < 9)
    (hc : c < 9) (h0 : cellAt b r c = 0) (hv : cellAt s r c ≠ 0) :
    Free b r c (cellAt s r c) := by
  obtain ⟨⟨_, _, hrow, hcol, hblk⟩, hag⟩ := hs
  refine ⟨?_, ?_, ?_⟩
  · intro j hj h
    have e := hag r hr j hj (by rw [h]; exact hv)
    rw [h] at e
    by_cases hjc : j = c
    · subst hjc
      exact hv (h.symm.trans h0)
    · exact hrow r hr j hj c hc hjc (by rw [e]; exact hv) e
  · intro i hi h
    have e := hag i hi c hc (by rw [h]; exact hv)
    rw [h] at e
    by_cases hir : i = r
    · subst hir
      exact hv (h.symm.trans h0)
    · exact hcol c hc i hi r hr hir (by rw [e]; exact hv) e
  · intro i hi j hj h
    have e := hag (r / 3 * 3 + i) (by omega) (c / 3 * 3 + j) (by omega) (by rw [h]; exact hv)
    rw [h] at e
    by_cases hij : i = r % 3 ∧ j = c % 3
    · have e1 : r / 3 * 3 + i = r := by omega
      have e2 : c / 3 * 3 + j = c := by omega
      rw [e1, e2] at h
      exact hv (h.symm.trans h0)
    · have hbr : r / 3 * 3 ∈ [0, 3, 6] := by
        have : r / 3 * 3 = 0 ∨ r / 3 * 3 = 3 ∨ r / 3 * 3 = 6 := by omega
        simpa using this
      have hbc : c / 3 * 3 ∈ [0, 3, 6] := by
        have : c / 3 * 3 = 0 ∨ c / 3 * 3 = 3 ∨ c / 3 * 3 = 6 := by omega
        simpa using this
      have := hblk _ hbr _ hbc i hi j hj (r % 3) (by omega) (c % 3) (by omega) (by omega)
        (by rw [e]; exact hv)
      have e1 : r / 3 * 3 + r % 3 = r := by omega
      have e2 : c / 3 * 3 + c % 3 = c := by omega
      rw [e1, e2] at this
      exact this e

/-- A grid that has a completion has no duplicates itself. -/
theorem distinct_of_completion (b s : List Nat) (hs : Completion b s) : Distinct b := by
  obtain ⟨⟨_, _, hrow, hcol, hblk⟩, hag⟩ := hs
  refine ⟨?_, ?_, ?_⟩
  · intro r hr c1 hc1 c2 hc2 hne h0 heq
    have e1 := hag r hr c1 hc1 h0
    have e2 := hag r hr c2 hc2 (by rw [← heq]; exact h0)
    exact hrow r hr c1 hc1 c2 hc2 hne (by rw [e1]; exact h0) (by rw [e1, e2]; exact heq)
  · intro c hc r1 hr1 r2 hr2 hne h0 heq
    have e1 := hag r1 hr1 c hc h0
    have e2 := hag r2 hr2 c hc (by rw [← heq]; exact h0)
    exact hcol c hc r1 hr1 r2 hr2 hne (by rw [e1]; exact h0) (by rw [e1, e2]; exact heq)
  · intro br hbr bc hbc i1 hi1 j1 hj1 i2 hi2 j2 hj2 hne h0 heq
    have obr := mem_origins hbr
    have obc := mem_origins hbc
    have e1 := hag (br + i1) (by omega) (bc + j1) (by omega) h0
    have e2 := hag (br + i2) (by omega) (bc + j2) (by omega) (by rw [← heq]; exact h0)
    exact hblk br hbr bc hbc i1 hi1 j1 hj1 i2 hi2 j2 hj2 hne (by rw [e1]; exact h0)
      (by rw [e1, e2]; exact heq)

theorem completion_set (b s : List Nat) (hb : b.length = 81) (r c : Nat) (hr : r < 9) (hc : c < 9)
    (hs : Completion b s) : Completion (b.set (r * 9 + c) (cellAt s r c)) s := by
  refine ⟨hs.1, ?_⟩
  intro r1 hr1 c1 hc1
  rw [cellAt_set b hb r c _ r1 c1 hr hc hc1]
  by_cases h : r1 = r ∧ c1 = c
  · obtain ⟨rfl, rfl⟩ := h
    rw [if_pos ⟨rfl, rfl⟩]
    exact fun _ => rfl
  · rw [if_neg h]
    exact hs.2 r1 hr1 c1 hc1

theorem completion_cell (b s : List Nat) (hs : Completion b s) (r c : Nat) (hr : r < 9)
    (hc : c < 9) : 1 ≤ cellAt s r c ∧ cellAt s r c ≤ 9 := by
  obtain ⟨⟨hlen, hfill, _⟩, _⟩ := hs
  have hk : r * 9 + c < s.length := by omega
  have : cellAt s r c = s[r * 9 + c] := by simp [cellAt, List.getElem?_eq_getElem hk]
  rw [this]
  exact hfill _ (List.getElem_mem hk)

theorem solved_full (g : List Nat) (hs : Solved g) (k : Nat) : g[k]? ≠ some 0 := by
  intro h
  have := hs.2.1 0 (List.mem_iff_getElem?.2 ⟨k, h⟩)
  omega

theorem solved_wellFormed (g : List Nat) (hs : Solved g) : WellFormed g :=
  ⟨hs.1, fun x hx => (hs.2.1 x hx).2⟩

theorem agrees_refl (g : List Nat) : Agrees g g := fun _ _ _ _ _ => rfl

/-- A complete valid grid is its own, and only, completion. -/
theorem completion_of_solved (g s : List Nat) (hg : Solved g) (hs : Completion g s) : s = g := by
  apply List.ext_getElem?
  intro k
  by_cases hk : k < 81
  · have e := hs.2 (k / 9) (by omega) (k % 9) (by omega)
    have ek : k / 9 * 9 + k % 9 = k := by omega
    unfold cellAt at e
    rw [ek] at e
    have h1 : k < g.length := by rw [hg.1]; exact hk
    have h2 : k < s.length := by rw [hs.1.1]; exact hk
    have hne := solved_full g hg k
    rw [List.getElem?_eq_getElem h1, List.getElem?_eq_getElem h2] at *
    simp only [Option.getD_some, ne_eq, Option.some.injEq] at e hne
    rw [e hne]
  · rw [List.getElem?_eq_none (by rw [hs.1.1]; omega),
      List.getElem?_eq_none (by rw [hg.1]; omega)]

/-! ## The contract of `solve` -/

theorem nextCursor_spec (r c : Nat) (hc : c < 9) :
    (nextCursor r c).1 * 9 + (nextCursor r c).2 = r * 9 + c + 1 ∧ (nextCursor r c).2 < 9 ∧
      (nextCursor r c).1 ≤ r + 1 := by
  unfold nextCursor
  split <;> simp <;> omega

theorem mem_candidates {v : Nat} : v ∈ candidates ↔ 1 ≤ v ∧ v ≤ 9 := by
  simp only [candidates, List.mem_cons, List.mem_singleton, List.not_mem_nil, or_false]
  omega

theorem Post.skip {p : Nat} {b b1 : List Nat} {f : Bool} {ws : List (Nat × Nat)} {noSol : Prop}
    (h : Post (p + 1) b f b1 ws noSol) (cur : Nat) (hcur : b[p]? = some cur) (hne : cur ≠ 0) :
    Post p b f b1 ws noSol := by
  refine ⟨h.length, ?_, ?_, h.failure, ?_⟩
  · intro w hw
    obtain ⟨a1, a2⟩ := h.writes w hw
    exact ⟨by omega, a2⟩
  · intro k
    rcases h.cells k with h1 | ⟨a1, a2⟩
    · exact Or.inl h1
    · exact Or.inr ⟨by omega, a2⟩
  · intro hf
    obtain ⟨s1, s2⟩ := h.success hf
    refine ⟨?_, s2⟩
    intro k hk1 hk2
    by_cases hk : k = p
    · subst hk
      rcases h.cells k with h1 | h1
      · rw [h1, hcur]
        simpa using hne
      · omega
    · exact s1 k (by omega) hk2

theorem Post.agrees {p : Nat} {b b1 : List Nat} {f : Bool} {ws : List (Nat × Nat)}
    {noSol : Prop} (h : Post p b f b1 ws noSol) : Agrees b b1 := by
  intro r _ c _ hne
  unfold cellAt at hne ⊢
  rcases h.cells (r * 9 + c) with h1 | ⟨_, h1, _⟩
  · rw [h1]
  · rw [h1] at hne
    exact absurd rfl hne

theorem Post.wellFormed {p : Nat} {b b1 : List Nat} {f : Bool} {ws : List (Nat × Nat)}
    {noSol : Prop} (h : Post p b f b1 ws noSol) (hb : WellFormed b) : WellFormed b1 := by
  refine ⟨h.length, ?_⟩
  intro x hx
  obtain ⟨k, hk⟩ := List.mem_iff_getElem?.1 hx
  rcases h.cells k with h1 | ⟨_, _, v, _, hv, h1⟩
  · rw [h1] at hk
    exact hb.2 x (List.mem_iff_getElem?.2 ⟨k, hk⟩)
  · rw [h1] at hk
    cases hk
    exact hv

theorem Post.filled {b b1 : List Nat} {ws : List (Nat × Nat)} {noSol : Prop}
    (h : Post 0 b true b1 ws noSol) (hb : WellFormed b) : Filled b1 := by
  intro x hx
  refine ⟨?_, (h.wellFormed hb).2 x hx⟩
  obtain ⟨k, hk⟩ := List.mem_iff_getElem?.1 hx
  obtain ⟨hlt, _⟩ := List.getElem?_eq_some_iff.1 hk
  have := (h.success rfl).1 k (Nat.zero_le _) (by rw [← h.length]; exact hlt)
  rw [hk] at this
  have hx0 : x ≠ 0 := fun h0 => this (by rw [h0])
  omega

theorem Post.completion {b b1 : List Nat} {ws : List (Nat × Nat)} {noSol : Prop}
    (h : Post 0 b true b1 ws noSol) (hb : WellFormed b) (hd : Distinct b) : Completion b b1 :=
  ⟨⟨h.length, h.filled hb, (h.success rfl).2 hd⟩, h.agrees⟩

theorem tryCandidates_post (next : Mem → Outcome (Bool × Mem)) (r c : Nat) (hr : r < 9)
    (hc : c < 9)
    (hnext : ∀ m1 : Mem, m1.cells.length = 81 → ∃ f m2 ws, next m1 = .done (f, m2) ∧
      m2.writes = ws ++ m1.writes ∧
      Post (r * 9 + c + 1) m1.cells f m2.cells ws (¬ ∃ s, Completion m1.cells s)) :
    ∀ vs : List Nat, (∀ v ∈ vs, 1 ≤ v ∧ v ≤ 9) → ∀ m : Mem, m.cells.length = 81 →
      m.cells[r * 9 + c]? = some 0 →
      ∃ f m2 ws, tryCandidates next r c vs m = .done (f, m2) ∧ m2.writes = ws ++ m.writes ∧
        Post (r * 9 + c) m.cells f m2.cells ws
          (¬ ∃ s, Completion m.cells s ∧ cellAt s r c ∈ vs) := by
  intro vs
  induction vs with
  | nil =>
    intro _ m hm _
    exact ⟨false, m, [], rfl, rfl, hm, by simp, fun k => Or.inl rfl,
      fun _ => ⟨rfl, by simp⟩, by simp⟩
  | cons v vs ih =>
    intro hvs m hm h0
    have hv := hvs v (List.mem_cons_self _ _)
    have hvs1 : ∀ x ∈ vs, 1 ≤ x ∧ x ≤ 9 := fun x hx => hvs x (List.mem_cons_of_mem _ hx)
    have hp : r * 9 + c < m.cells.length := by omega
    have hc0 : cellAt m.cells r c = 0 := (cellAt_eq_zero_iff _ r c hp).2 h0
    obtain ⟨t, hsafe, hfree⟩ := isSafe_spec m.cells r c v hm hr hc
    cases t with
    | false =>
      obtain ⟨f, m2, ws, hrun, hw, hP⟩ := ih hvs1 m hm h0
      refine ⟨f, m2, ws, by simp [tryCandidates, hsafe, hrun], hw, hP.length, hP.writes,
        hP.cells, ?_, hP.success⟩
      intro hf
      refine ⟨(hP.failure hf).1, ?_⟩
      rintro ⟨s, hs, hmem⟩
      rcases List.mem_cons.1 hmem with heq | hin
      · have := free_of_completion m.cells s hs r c hr hc hc0
          (by have := completion_cell m.cells s hs r c hr hc; omega)
        rw [heq] at this
        exact absurd (hfree.2 this) (by simp)
      · exact (hP.failure hf).2 ⟨s, hs, hin⟩
    | true =>
      have hFree : Free m.cells r c v := hfree.1 rfl
      have hstore := store_eq m (r * 9 + c) v hp
      obtain ⟨f, m2, ws1, hrun, hw1, hP⟩ := hnext ⟨m.cells.set (r * 9 + c) v,
        (r * 9 + c, v) :: m.writes⟩ (by simp [hm])
      simp only at hw1 hP
      have hother : ∀ k, k ≠ r * 9 + c → (m.cells.set (r * 9 + c) v)[k]? = m.cells[k]? :=
        fun k hk => List.getElem?_set_ne (Ne.symm hk)
      have hself : (m.cells.set (r * 9 + c) v)[r * 9 + c]? = some v :=
        List.getElem?_set_self hp
      have hwr1 : ∀ w ∈ ws1,
          r * 9 + c ≤ w.1 ∧ w.1 < 81 ∧ w.2 ≤ 9 ∧ m.cells[w.1]? = some 0 := by
        intro w hw
        obtain ⟨a1, a2, a3, a4⟩ := hP.writes w hw
        refine ⟨by omega, a2, a3, ?_⟩
        rw [← hother w.1 (by omega)]
        exact a4
      cases f with
      | true =>
        refine ⟨true, m2, ws1 ++ [(r * 9 + c, v)],
          by simp [tryCandidates, hsafe, hstore, hrun], by simp [hw1], hP.length, ?_, ?_,
          by simp, ?_⟩
        · intro w hw
          rcases List.mem_append.1 hw with h1 | h1
          · exact hwr1 w h1
          · rw [List.mem_singleton] at h1
            subst h1
            exact ⟨le_refl _, by omega, hv.2, h0⟩
        · intro k
          by_cases hk : k = r * 9 + c
          · subst hk
            right
            refine ⟨le_refl _, h0, v, hv.1, hv.2, ?_⟩
            rcases hP.cells (r * 9 + c) with h1 | h1
            · rw [h1, hself]
            · omega
          · rcases hP.cells k with h1 | ⟨a1, a2, a3⟩
            · left
              rw [h1, hother k hk]
            · right
              exact ⟨by omega, by rw [← hother k hk]; exact a2, a3⟩
        · intro _
          obtain ⟨s1, s2⟩ := hP.success rfl
          refine ⟨?_, fun hd => s2 (distinct_set m.cells hm r c v hr hc hFree hd)⟩
          intro k hk1 hk2
          by_cases hk : k = r * 9 + c
          · subst hk
            rcases hP.cells (r * 9 + c) with h1 | h1
            · rw [h1, hself]
              simp
              omega
            · omega
          · exact s1 k (by omega) hk2
      | false =>
        obtain ⟨hcells, hno⟩ := hP.failure rfl
        have hp2 : r * 9 + c < m2.cells.length := by rw [hP.length]; omega
        have hstore2 := store_eq m2 (r * 9 + c) 0 hp2
        have hback : m2.cells.set (r * 9 + c) 0 = m.cells := by
          rw [hcells, List.set_set]
          exact set_zero_of_empty _ _ h0
        rw [hback] at hstore2
        obtain ⟨f, m4, ws, hrun2, hw, hQ⟩ :=
          ih hvs1 ⟨m.cells, (r * 9 + c, 0) :: m2.writes⟩ hm h0
        simp only at hw hQ
        refine ⟨f, m4, ws ++ (r * 9 + c, 0) :: (ws1 ++ [(r * 9 + c, v)]),
          by simp [tryCandidates, hsafe, hstore, hrun, hstore2, hrun2], by simp [hw, hw1],
          hQ.length, ?_, hQ.cells, ?_, hQ.success⟩
        · intro w hw
          rcases List.mem_append.1 hw with h1 | h1
          · exact hQ.writes w h1
          · rcases List.mem_cons.1 h1 with h2 | h2
            · subst h2
              exact ⟨le_refl _, by omega, by omega, h0⟩
            · rcases List.mem_append.1 h2 with h3 | h3
              · exact hwr1 w h3
              · rw [List.mem_singleton] at h3
                subst h3
                exact ⟨le_refl _, by omega, hv.2, h0⟩
        · intro hf
          refine ⟨(hQ.failure hf).1, ?_⟩
          rintro ⟨s, hs, hmem⟩
          rcases List.mem_cons.1 hmem with heq | hin
          · apply hno
            refine ⟨s, ?_⟩
            have := completion_set m.cells s hm r c hr hc hs
            rw [heq] at this
            exact this
          · exact (hQ.failure hf).2 ⟨s, hs, hin⟩

/-- The contract of `solve` at any cursor: with enough stack frames it returns, and its
result satisfies `Post`. -/
theorem solve_post : ∀ (depth : Nat) (m : Mem) (r c : Nat), m.cells.length = 81 → c < 9 →
    r ≤ 9 → 81 - (r * 9 + c) < depth →
    ∃ f m2 ws, solve depth m r c = .done (f, m2) ∧ m2.writes = ws ++ m.writes ∧
      Post (r * 9 + c) m.cells f m2.cells ws (¬ ∃ s, Completion m.cells s) := by
  intro depth
  induction depth with
  | zero => intro m r c _ _ _ h; omega
  | succ depth ih =>
    intro m r c hm hc hr hd
    by_cases h9 : r = 9
    · refine ⟨true, m, [], by simp [solve, h9], rfl, hm, by simp, fun k => Or.inl rfl, by simp,
        fun _ => ⟨?_, id⟩⟩
      intro k hk1 hk2
      omega
    · obtain ⟨e1, e2, e3⟩ := nextCursor_spec r c hc
      have hp : r * 9 + c < m.cells.length := by omega
      have hnext : ∀ m1 : Mem, m1.cells.length = 81 → ∃ f m2 ws,
          solve depth m1 (nextCursor r c).1 (nextCursor r c).2 = .done (f, m2) ∧
          m2.writes = ws ++ m1.writes ∧
          Post (r * 9 + c + 1) m1.cells f m2.cells ws (¬ ∃ s, Completion m1.cells s) := by
        intro m1 hm1
        have := ih m1 (nextCursor r c).1 (nextCursor r c).2 hm1 e2 (by omega) (by omega)
        rw [e1] at this
        exact this
      by_cases h0 : m.cells[r * 9 + c] = 0
      · have hread : m.cells[r * 9 + c]? = some 0 := by
          rw [List.getElem?_eq_getElem hp, h0]
        obtain ⟨f, m2, ws, hrun, hw, hP⟩ := tryCandidates_post
          (fun m1 => solve depth m1 (nextCursor r c).1 (nextCursor r c).2) r c (by omega) hc
          hnext candidates (fun v hv => mem_candidates.1 hv) m hm hread
        refine ⟨f, m2, ws, by simp [solve, h9, hread, hrun], hw, hP.length, hP.writes, hP.cells,
          ?_, hP.success⟩
        intro hf
        refine ⟨(hP.failure hf).1, ?_⟩
        rintro ⟨s, hs⟩
        exact (hP.failure hf).2
          ⟨s, hs, mem_candidates.2 (completion_cell m.cells s hs r c (by omega) hc)⟩
      · have hread : m.cells[r * 9 + c]? = some m.cells[r * 9 + c] :=
          List.getElem?_eq_getElem hp
        obtain ⟨f, m2, ws, hrun, hw, hP⟩ := hnext m hm
        exact ⟨f, m2, ws, by simp [solve, h9, hread, h0, hrun], hw, hP.skip _ hread h0⟩

theorem solve_root (depth : Nat) (hdepth : 82 ≤ depth) (g : List Nat) (hg : g.length = 81)
    (w : List (Nat × Nat)) :
    ∃ f m1 ws, solve depth ⟨g, w⟩ 0 0 = .done (f, m1) ∧ m1.writes = ws ++ w ∧
      Post 0 g f m1.cells ws (¬ ∃ s, Completion g s) := by
  have := solve_post depth ⟨g, w⟩ 0 0 hg (by omega) (by omega) (by omega)
  simpa using this

/-- From a cursor after which no cell is empty, `solve` returns `true` and stores
nothing. -/
theorem solve_full : ∀ (depth : Nat) (m : Mem) (r c : Nat), m.cells.length = 81 → c < 9 →
    r ≤ 9 → 81 - (r * 9 + c) < depth →
    (∀ k, r * 9 + c ≤ k → k < 81 → m.cells[k]? ≠ some 0) →
    solve depth m r c = .done (true, m) := by
  intro depth
  induction depth with
  | zero => intro m r c _ _ _ h; omega
  | succ depth ih =>
    intro m r c hm hc hr hd hfull
    by_cases h9 : r = 9
    · simp [solve, h9]
    · obtain ⟨e1, e2, e3⟩ := nextCursor_spec r c hc
      have hp : r * 9 + c < m.cells.length := by omega
      have hread : m.cells[r * 9 + c]? = some m.cells[r * 9 + c] := List.getElem?_eq_getElem hp
      have h0 : m.cells[r * 9 + c] ≠ 0 := by
        intro h0
        exact hfull (r * 9 + c) (le_refl _) (by omega) (by rw [hread, h0])
      have := ih m (nextCursor r c).1 (nextCursor r c).2 hm e2 (by omega) (by omega)
        (fun k hk1 hk2 => hfull k (by omega) hk2)
      simp [solve, h9, hread, h0, this]

/-! ## More stack frames never change a result -/

theorem tryCandidates_mono (next next1 : Mem → Outcome (Bool × Mem))
    (h : ∀ m x, next m = .done x → next1 m = .done x) (r c : Nat) :
    ∀ (vs : List Nat) (m : Mem) (x : Bool × Mem), tryCandidates next r c vs m = .done x →
      tryCandidates next1 r c vs m = .done x := by
  intro vs
  induction vs with
  | nil => intro m x hx; simpa [tryCandidates] using hx
  | cons v vs ih =>
    intro m x hx
    cases hs : isSafe m.cells r c v with
    | fault => simp [tryCandidates, hs] at hx
    | timeout => simp [tryCandidates, hs] at hx
    | done t =>
      cases t with
      | false =>
        simp only [tryCandidates, hs] at hx ⊢
        exact ih m x hx
      | true =>
        cases hst : store m (r * 9 + c) v with
        | fault => simp [tryCandidates, hs, hst] at hx
        | timeout => simp [tryCandidates, hs, hst] at hx
        | done m1 =>
          cases hn : next m1 with
          | fault => simp [tryCandidates, hs, hst, hn] at hx
          | timeout => simp [tryCandidates, hs, hst, hn] at hx
          | done y =>
            obtain ⟨f, m2⟩ := y
            have hn1 := h m1 _ hn
            cases f with
            | true =>
              simp only [tryCandidates, hs, hst, hn, hn1] at hx ⊢
              exact hx
            | false =>
              cases hst2 : store m2 (r * 9 + c) 0 with
              | fault => simp [tryCandidates, hs, hst, hn, hst2] at hx
              | timeout => simp [tryCandidates, hs, hst, hn, hst2] at hx
              | done m3 =>
                simp only [tryCandidates, hs, hst, hn, hn1, hst2] at hx ⊢
                exact ih m3 x hx

theorem solve_mono_succ : ∀ (depth : Nat) (m : Mem) (r c : Nat) (x : Bool × Mem),
    solve depth m r c = .done x → solve (depth + 1) m r c = .done x := by
  intro depth
  induction depth with
  | zero => intro m r c x hx; simp [solve] at hx
  | succ depth ih =>
    intro m r c x hx
    rw [solve] at hx ⊢
    by_cases h9 : r = 9
    · simpa [h9] using hx
    · simp only [h9, if_false] at hx ⊢
      cases hread : m.cells[r * 9 + c]? with
      | none => simp [hread] at hx
      | some cur =>
        simp only [hread] at hx ⊢
        by_cases h0 : cur = 0
        · simp only [h0, ne_eq, not_true_eq_false, if_false] at hx ⊢
          exact tryCandidates_mono _ _ (fun m1 y hy => ih m1 _ _ y hy) r c _ m x hx
        · simp only [ne_eq, h0, not_false_eq_true, if_true] at hx ⊢
          exact ih m _ _ x hx

theorem solve_mono (d1 d2 : Nat) (hle : d1 ≤ d2) (m : Mem) (r c : Nat) (x : Bool × Mem)
    (hx : solve d1 m r c = .done x) : solve d2 m r c = .done x := by
  induction hle with
  | refl => exact hx
  | step _ ih => exact solve_mono_succ _ m r c x ih

/-! ## Facts about the concrete grids -/

theorem wellFormed_solvedGrid : WellFormed solvedGrid := by decide

theorem wellFormed_emptyGrid : WellFormed emptyGrid := by decide

theorem wellFormed_openGrid : WellFormed openGrid := by decide

theorem wellFormed_deadEndGrid : WellFormed deadEndGrid := by decide

theorem wellFormed_twoFivesGrid : WellFormed twoFivesGrid := by decide

theorem solved_solvedGrid : Solved solvedGrid := by decide

theorem completion_openGrid : Completion openGrid solvedGrid := by decide

/-- The grid `openGrid` has `solvedGrid` as its only completion: each empty cell of the last
row is the one digit missing from its column. -/
theorem openGrid_unique (s1 : List Nat) (h : Completion openGrid s1) : s1 = solvedGrid := by
  have hA : ∀ r < 8, ∀ c < 9,
      cellAt openGrid r c = cellAt solvedGrid r c ∧ cellAt solvedGrid r c ≠ 0 := by decide
  have hkey : ∀ c < 9, ∀ v < 10, 1 ≤ v → (∀ i < 8, v ≠ cellAt solvedGrid i c) →
      v = cellAt solvedGrid 8 c := by decide
  have hB : ∀ r < 8, ∀ c < 9, cellAt s1 r c = cellAt solvedGrid r c := by
    intro r hr c hc
    obtain ⟨a1, a2⟩ := hA r hr c hc
    rw [h.2 r (by omega) c hc (by rw [a1]; exact a2), a1]
  apply ext_of_cellAt s1 solvedGrid h.1.1 rfl
  intro r hr c hc
  by_cases hr8 : r < 8
  · exact hB r hr8 c hc
  · have e8 : r = 8 := by omega
    subst e8
    obtain ⟨v1, v9⟩ := completion_cell openGrid s1 h 8 c (by omega) hc
    refine hkey c hc _ (by omega) v1 ?_
    intro i hi heq
    rw [← hB i hi c hc] at heq
    exact h.1.2.2.2.1 c hc 8 (by omega) i (by omega) (by omega) (by omega) heq

/-! ## Runs of `solve` given as such -/

/-- The contract of `solve` for a run that is given as such, at any depth. -/
theorem solve_post_of_run (depth : Nat) (m : Mem) (r c : Nat) (hm : m.cells.length = 81)
    (hc : c < 9) (hr : r ≤ 9) (f : Bool) (m1 : Mem) (hrun : solve depth m r c = .done (f, m1)) :
    ∃ ws, m1.writes = ws ++ m.writes ∧
      Post (r * 9 + c) m.cells f m1.cells ws (¬ ∃ s, Completion m.cells s) := by
  have hrun2 := solve_mono depth (max depth 82) (le_max_left _ _) m r c _ hrun
  obtain ⟨f2, m2, ws, hrun3, hw, hP⟩ := solve_post (max depth 82) m r c hm hc hr
    (by have := le_max_right depth 82; omega)
  rw [hrun2] at hrun3
  cases hrun3
  exact ⟨ws, hw, hP⟩

theorem solve_base (depth : Nat) (m : Mem) (c : Nat) : solve (depth + 1) m 9 c = .done (true, m) := by
  simp [solve]

theorem solve_skip_eq (depth : Nat) (m : Mem) (r c : Nat) (hm : m.cells.length = 81)
    (hr : r ≤ 8) (hc : c ≤ 8) (hne : cellAt m.cells r c ≠ 0) :
    solve (depth + 1) m r c = solve depth m (nextCursor r c).1 (nextCursor r c).2 := by
  have hp : r * 9 + c < m.cells.length := by omega
  have hread := getElem?_cellAt m.cells r c hp
  have h9 : r ≠ 9 := by omega
  rw [solve, if_neg h9]
  simp only [hread, ne_eq, hne, not_false_eq_true, if_true]

/-! ## `isSafe` at an empty cell -/

theorem free_iff_elsewhere (g : List Nat) (r c v : Nat) (hv : v ≠ 0) (h0 : cellAt g r c = 0) :
    Free g r c v ↔ FreeElsewhere g r c v := by
  have hself : cellAt g r c ≠ v := by rw [h0]; exact Ne.symm hv
  constructor
  · rintro ⟨f1, f2, f3⟩
    exact ⟨fun j hj _ => f1 j hj, fun i hi _ => f2 i hi, fun i hi j hj _ => f3 i hi j hj⟩
  · rintro ⟨f1, f2, f3⟩
    refine ⟨fun j hj => ?_, fun i hi => ?_, fun i hi j hj => ?_⟩
    · by_cases h : j = c
      · rw [h]; exact hself
      · exact f1 j hj h
    · by_cases h : i = r
      · rw [h]; exact hself
      · exact f2 i hi h
    · by_cases h : r / 3 * 3 + i = r ∧ c / 3 * 3 + j = c
      · rw [h.1, h.2]; exact hself
      · exact f3 i hi j hj (by omega)

/-! ## The cursor `(r, c)` and the linear cursor -/

theorem nextCursor_linear (p : Nat) :
    nextCursor (p / 9) (p % 9) = ((p + 1) / 9, (p + 1) % 9) := by
  unfold nextCursor
  split
  · next h =>
    have h1 : (p + 1) / 9 = p / 9 + 1 := by omega
    have h2 : (p + 1) % 9 = 0 := by omega
    rw [h1, h2]
  · next h =>
    have h1 : (p + 1) / 9 = p / 9 := by omega
    have h2 : (p + 1) % 9 = p % 9 + 1 := by omega
    rw [h1, h2]

theorem solve_eq_solveLinear : ∀ (depth : Nat) (m : Mem) (p : Nat), p ≤ 81 →
    solve depth m (p / 9) (p % 9) = solveLinear depth m p := by
  intro depth
  induction depth with
  | zero => intro m p _; rfl
  | succ depth ih =>
    intro m p hp
    rw [solve, solveLinear]
    by_cases h81 : 81 ≤ p
    · have h9 : p / 9 = 9 := by omega
      rw [if_pos h9, if_pos h81]
    · have h9 : ¬ p / 9 = 9 := by omega
      have hidx : p / 9 * 9 + p % 9 = p := by omega
      have hnext := nextCursor_linear p
      rw [if_neg h9, if_neg h81, hidx, hnext]
      have hfun : (fun m1 => solve depth m1 ((p + 1) / 9) ((p + 1) % 9))
          = fun m1 => solveLinear depth m1 (p + 1) := by
        funext m1
        exact ih m1 (p + 1) (by omega)
      cases m.cells[p]? with
      | none => rfl
      | some cur => simp only [ih m (p + 1) (by omega), hfun]

/-! ## The states of the cells during a run -/

theorem replay_append (g : List Nat) (ws1 ws2 : List (Nat × Nat)) :
    replay g (ws1 ++ ws2) = replay (replay g ws2) ws1 := by
  induction ws1 with
  | nil => rfl
  | cons x ws1 ih =>
    show (replay g (ws1 ++ ws2)).set x.1 x.2 = (replay (replay g ws2) ws1).set x.1 x.2
    rw [ih]

theorem Trail.nil (b : List Nat) (hb : b.length = 81) (hd : Distinct b) : Trail b [] b := by
  refine ⟨rfl, hb, ?_⟩
  intro ws1 ws2 h
  have h2 : ws2 = [] := (List.append_eq_nil.1 h.symm).2
  rw [h2]
  exact hd

theorem Trail.distinct {b b1 : List Nat} {ws : List (Nat × Nat)} (h : Trail b ws b1) :
    Distinct b1 := by
  rw [h.1]
  exact h.2.2 [] ws rfl

theorem Trail.single (b : List Nat) (hb : b.length = 81) (hd : Distinct b) (k v : Nat)
    (hd1 : Distinct (b.set k v)) : Trail b [(k, v)] (b.set k v) := by
  refine ⟨rfl, by simp [hb], ?_⟩
  intro ws1 ws2 h
  cases ws1 with
  | nil =>
    simp only [List.nil_append] at h
    rw [← h]
    exact hd1
  | cons x ws1 =>
    simp only [List.cons_append, List.cons.injEq] at h
    have h2 : ws2 = [] := (List.append_eq_nil.1 h.2.symm).2
    rw [h2]
    exact hd

theorem Trail.trans {b bA bB : List Nat} {wsA wsB : List (Nat × Nat)} (hA : Trail b wsA bA)
    (hB : Trail bA wsB bB) : Trail b (wsB ++ wsA) bB := by
  refine ⟨by rw [replay_append, ← hA.1, ← hB.1], hB.2.1, ?_⟩
  intro ws1 ws2 h
  rcases List.append_eq_append_iff.1 h with ⟨a1, h1, h2⟩ | ⟨c1, h1, h2⟩
  · exact hA.2.2 a1 ws2 h2
  · rw [h2, replay_append, ← hA.1]
    exact hB.2.2 ws1 c1 h1

/-- Emptying a cell keeps the grid free of duplicates. -/
theorem distinct_set_zero (b : List Nat) (hb : b.length = 81) (r c : Nat) (hr : r < 9)
    (hc : c < 9) (hd : Distinct b) : Distinct (b.set (r * 9 + c) 0) := by
  obtain ⟨hrow, hcol, hblk⟩ := hd
  refine ⟨?_, ?_, ?_⟩
  · intro r1 hr1 c1 hc1 c2 hc2 hne
    rw [cellAt_set b hb r c 0 r1 c1 hr hc hc1, cellAt_set b hb r c 0 r1 c2 hr hc hc2]
    by_cases h1 : r1 = r ∧ c1 = c
    · rw [if_pos h1]
      exact fun h => absurd rfl h
    · rw [if_neg h1]
      by_cases h2 : r1 = r ∧ c2 = c
      · rw [if_pos h2]
        exact fun h => h
      · rw [if_neg h2]
        exact hrow r1 hr1 c1 hc1 c2 hc2 hne
  · intro c1 hc1 r1 hr1 r2 hr2 hne
    rw [cellAt_set b hb r c 0 r1 c1 hr hc hc1, cellAt_set b hb r c 0 r2 c1 hr hc hc1]
    by_cases h1 : r1 = r ∧ c1 = c
    · rw [if_pos h1]
      exact fun h => absurd rfl h
    · rw [if_neg h1]
      by_cases h2 : r2 = r ∧ c1 = c
      · rw [if_pos h2]
        exact fun h => h
      · rw [if_neg h2]
        exact hcol c1 hc1 r1 hr1 r2 hr2 hne
  · intro br hbr bc hbc i1 hi1 j1 hj1 i2 hi2 j2 hj2 hne
    have obr := mem_origins hbr
    have obc := mem_origins hbc
    rw [cellAt_set b hb r c 0 _ _ hr hc (by omega), cellAt_set b hb r c 0 _ _ hr hc (by omega)]
    by_cases h1 : br + i1 = r ∧ bc + j1 = c
    · rw [if_pos h1]
      exact fun h => absurd rfl h
    · rw [if_neg h1]
      by_cases h2 : br + i2 = r ∧ bc + j2 = c
      · rw [if_pos h2]
        exact fun h => h
      · rw [if_neg h2]
        exact hblk br hbr bc hbc i1 hi1 j1 hj1 i2 hi2 j2 hj2 hne

theorem wellFormed_set (g : List Nat) (hg : WellFormed g) (k v : Nat) (hv : v ≤ 9) :
    WellFormed (g.set k v) := by
  refine ⟨by simp [hg.1], fun x hx => ?_⟩
  rcases List.mem_or_eq_of_mem_set hx with h | h
  · exact hg.2 x h
  · rw [h]; exact hv

theorem tryCandidates_trail (next : Mem → Outcome (Bool × Mem)) (r c : Nat) (hr : r < 9)
    (hc : c < 9)
    (hnext : ∀ m1 f m2, m1.cells.length = 81 → Distinct m1.cells → next m1 = .done (f, m2) →
      ∃ ws, m2.writes = ws ++ m1.writes ∧ Trail m1.cells ws m2.cells) :
    ∀ (vs : List Nat) (m : Mem) (f : Bool) (m2 : Mem), m.cells.length = 81 →
      Distinct m.cells → tryCandidates next r c vs m = .done (f, m2) →
      ∃ ws, m2.writes = ws ++ m.writes ∧ Trail m.cells ws m2.cells := by
  intro vs
  induction vs with
  | nil =>
    intro m f m2 hm hd hrun
    simp only [tryCandidates, Outcome.done.injEq, Prod.mk.injEq] at hrun
    rw [← hrun.2]
    exact ⟨[], rfl, Trail.nil _ hm hd⟩
  | cons v vs ih =>
    intro m f m2 hm hd hrun
    have hp : r * 9 + c < m.cells.length := by omega
    obtain ⟨t, hsafe, hfree⟩ := isSafe_spec m.cells r c v hm hr hc
    cases t with
    | false =>
      simp only [tryCandidates, hsafe] at hrun
      exact ih m f m2 hm hd hrun
    | true =>
      have hstore := store_eq m (r * 9 + c) v hp
      have hd1 : Distinct (m.cells.set (r * 9 + c) v) :=
        distinct_set m.cells hm r c v hr hc (hfree.1 rfl) hd
      have hT1 := Trail.single m.cells hm hd (r * 9 + c) v hd1
      simp only [tryCandidates, hsafe, hstore] at hrun
      cases hn : next ⟨m.cells.set (r * 9 + c) v, (r * 9 + c, v) :: m.writes⟩ with
      | fault => simp [hn] at hrun
      | timeout => simp [hn] at hrun
      | done y =>
        obtain ⟨f1, m3⟩ := y
        obtain ⟨ws1, hw1, hT2⟩ := hnext _ f1 m3 (by simp [hm]) hd1 hn
        simp only at hw1 hT2
        cases f1 with
        | true =>
          simp only [hn, Outcome.done.injEq, Prod.mk.injEq] at hrun
          obtain ⟨_, h2⟩ := hrun
          subst h2
          exact ⟨ws1 ++ [(r * 9 + c, v)], by simp [hw1], hT1.trans hT2⟩
        | false =>
          have hp3 : r * 9 + c < m3.cells.length := by rw [hT2.2.1]; omega
          have hstore3 := store_eq m3 (r * 9 + c) 0 hp3
          simp only [hn, hstore3] at hrun
          have hd3 : Distinct (m3.cells.set (r * 9 + c) 0) :=
            distinct_set_zero m3.cells hT2.2.1 r c hr hc hT2.distinct
          have hT3 := Trail.single m3.cells hT2.2.1 hT2.distinct (r * 9 + c) 0 hd3
          obtain ⟨ws4, hw4, hT4⟩ := ih ⟨m3.cells.set (r * 9 + c) 0,
            (r * 9 + c, 0) :: m3.writes⟩ f m2 (by simp [hT2.2.1]) hd3 hrun
          simp only at hw4 hT4
          refine ⟨ws4 ++ (r * 9 + c, 0) :: (ws1 ++ [(r * 9 + c, v)]), by simp [hw4, hw1], ?_⟩
          have := ((hT1.trans hT2).trans hT3).trans hT4
          simpa using this

/-- Every state of the cells during a run of `solve` from cells without duplicates is
without duplicates. -/
theorem solve_trail : ∀ (depth : Nat) (m : Mem) (r c : Nat) (f : Bool) (m2 : Mem),
    m.cells.length = 81 → c < 9 → r ≤ 9 → Distinct m.cells →
    solve depth m r c = .done (f, m2) →
    ∃ ws, m2.writes = ws ++ m.writes ∧ Trail m.cells ws m2.cells := by
  intro depth
  induction depth with
  | zero => intro m r c f m2 _ _ _ _ hrun; simp [solve] at hrun
  | succ depth ih =>
    intro m r c f m2 hm hc hr hd hrun
    by_cases h9 : r = 9
    · simp only [solve, h9, if_true, Outcome.done.injEq, Prod.mk.injEq] at hrun
      rw [← hrun.2]
      exact ⟨[], rfl, Trail.nil _ hm hd⟩
    · obtain ⟨e1, e2, e3⟩ := nextCursor_spec r c hc
      have hp : r * 9 + c < m.cells.length := by omega
      have hread : m.cells[r * 9 + c]? = some m.cells[r * 9 + c] := List.getElem?_eq_getElem hp
      rw [solve, if_neg h9] at hrun
      simp only [hread] at hrun
      by_cases h0 : m.cells[r * 9 + c] = 0
      · simp only [h0, ne_eq, not_true_eq_false, if_false] at hrun
        exact tryCandidates_trail _ r c (by omega) hc
          (fun m1 f1 m3 hm1 hd1 hn => ih m1 _ _ f1 m3 hm1 e2 (by omega) hd1 hn)
          candidates m f m2 hm hd hrun
      · simp only [ne_eq, h0, not_false_eq_true, if_true] at hrun
        exact ih m _ _ f m2 hm e2 (by omega) hd hrun

/-! ## The first completion in row-major order -/

theorem LexFrom.step {p : Nat} {b s : List Nat} (h : LexFrom (p + 1) b s)
    (hp : b[p]? = s[p]?) : LexFrom p b s := by
  rcases h with h | ⟨k, hk1, hk2, hk3, hk4⟩
  · left
    intro k hk1 hk2
    by_cases hkp : k = p
    · rw [hkp]; exact hp
    · exact h k (by omega) hk2
  · right
    refine ⟨k, by omega, hk2, ?_, hk4⟩
    intro i hi1 hi2
    by_cases hip : i = p
    · rw [hip]; exact hp
    · exact hk3 i (by omega) hi2

theorem LexFrom.here {p : Nat} {b s : List Nat} (hp : p < 81)
    (hlt : (b[p]?).getD 0 < (s[p]?).getD 0) : LexFrom p b s :=
  Or.inr ⟨p, le_refl _, hp, fun i h1 h2 => by omega, hlt⟩

theorem lexLe_of_lexFrom {b s : List Nat} (hb : b.length = 81) (hs : s.length = 81)
    (h : LexFrom 0 b s) : LexLe b s := by
  rcases h with h | ⟨k, _, hk2, hk3, hk4⟩
  · left
    apply List.ext_getElem?
    intro k
    by_cases hk : k < 81
    · exact h k (Nat.zero_le _) hk
    · have h1 : b.length ≤ k := by omega
      have h2 : s.length ≤ k := by omega
      rw [List.getElem?_eq_none h1, List.getElem?_eq_none h2]
  · exact Or.inr ⟨k, hk2, fun i hi => hk3 i (Nat.zero_le _) hi, hk4⟩

theorem lt_of_first_difference : ∀ (k : Nat) (b s : List Nat), k < b.length → k < s.length →
    (∀ i < k, b[i]? = s[i]?) → (b[k]?).getD 0 < (s[k]?).getD 0 → b < s := by
  intro k
  induction k with
  | zero =>
    intro b s hb hs _ hlt
    cases b with
    | nil => simp at hb
    | cons x b =>
      cases s with
      | nil => simp at hs
      | cons y s =>
        simp only [List.getElem?_cons_zero, Option.getD_some] at hlt
        exact List.Lex.rel hlt
  | succ k ih =>
    intro b s hb hs heq hlt
    cases b with
    | nil => simp at hb
    | cons x b =>
      cases s with
      | nil => simp at hs
      | cons y s =>
        have h0 := heq 0 (Nat.succ_pos k)
        simp only [List.getElem?_cons_zero, Option.some.injEq] at h0
        subst h0
        simp only [List.length_cons, Nat.add_lt_add_iff_right] at hb hs
        simp only [List.getElem?_cons_succ] at hlt
        refine List.Lex.cons (ih b s hb hs ?_ hlt)
        intro i hi
        have := heq (i + 1) (by omega)
        simpa only [List.getElem?_cons_succ] using this

/-- The order `LexLe` on 81-cell grids is the order of lists. -/
theorem le_of_lexLe {b s : List Nat} (hb : b.length = 81) (hs : s.length = 81)
    (h : LexLe b s) : b ≤ s := by
  rcases h with h | ⟨k, hk, heq, hlt⟩
  · rw [h]
  · exact le_of_lt (lt_of_first_difference k b s (by omega) (by omega) heq hlt)

theorem getElem?_of_completion (b s : List Nat) (hs : Completion b s) (r c : Nat) (hr : r < 9)
    (hc : c < 9) : s[r * 9 + c]? = some (cellAt s r c) :=
  getElem?_cellAt s r c (by rw [hs.1.1]; omega)

theorem tryCandidates_lex (next : Mem → Outcome (Bool × Mem)) (r c : Nat) (hr : r < 9)
    (hc : c < 9)
    (hnext : ∀ m1 : Mem, m1.cells.length = 81 → ∃ f m2 ws, next m1 = .done (f, m2) ∧
      m2.writes = ws ++ m1.writes ∧
      Post (r * 9 + c + 1) m1.cells f m2.cells ws (¬ ∃ s, Completion m1.cells s))
    (hlex : ∀ m1 m2 : Mem, m1.cells.length = 81 → next m1 = .done (true, m2) →
      ∀ s, Completion m1.cells s → LexFrom (r * 9 + c + 1) m2.cells s) :
    ∀ vs : List Nat, vs.Pairwise (fun x y => x < y) → ∀ m : Mem, m.cells.length = 81 →
      m.cells[r * 9 + c]? = some 0 → ∀ m2, tryCandidates next r c vs m = .done (true, m2) →
      ∀ s, Completion m.cells s → cellAt s r c ∈ vs → LexFrom (r * 9 + c) m2.cells s := by
  intro vs
  induction vs with
  | nil => intro _ m _ _ m2 _ s _ hmem; simp at hmem
  | cons v vs ih =>
    intro hsorted m hm h0 m2 hrun s hs hmem
    obtain ⟨hlt, hsorted1⟩ := List.pairwise_cons.1 hsorted
    have hp : r * 9 + c < m.cells.length := by omega
    have hc0 : cellAt m.cells r c = 0 := (cellAt_eq_zero_iff _ r c hp).2 h0
    have hcell := completion_cell m.cells s hs r c hr hc
    have hsread := getElem?_of_completion m.cells s hs r c hr hc
    obtain ⟨t, hsafe, hfree⟩ := isSafe_spec m.cells r c v hm hr hc
    cases t with
    | false =>
      simp only [tryCandidates, hsafe] at hrun
      rcases List.mem_cons.1 hmem with heq | hin
      · have := free_of_completion m.cells s hs r c hr hc hc0 (by omega)
        rw [heq] at this
        exact absurd (hfree.2 this) (by simp)
      · exact ih hsorted1 m hm h0 m2 hrun s hs hin
    | true =>
      have hstore := store_eq m (r * 9 + c) v hp
      obtain ⟨f, m3, ws1, hn, _, hP⟩ := hnext ⟨m.cells.set (r * 9 + c) v,
        (r * 9 + c, v) :: m.writes⟩ (by simp [hm])
      simp only at hP
      have hself : (m.cells.set (r * 9 + c) v)[r * 9 + c]? = some v :=
        List.getElem?_set_self hp
      simp only [tryCandidates, hsafe, hstore, hn] at hrun
      cases f with
      | true =>
        simp only [Outcome.done.injEq, Prod.mk.injEq, true_and] at hrun
        subst hrun
        have hm3 : m3.cells[r * 9 + c]? = some v := by
          rcases hP.cells (r * 9 + c) with h1 | h1
          · rw [h1, hself]
          · omega
        rcases List.mem_cons.1 hmem with heq | hin
        · have hcomp := completion_set m.cells s hm r c hr hc hs
          rw [heq] at hcomp
          refine (hlex _ m3 (by simp [hm]) hn s hcomp).step ?_
          rw [hm3, hsread, heq]
        · refine LexFrom.here (by omega) ?_
          rw [hm3, hsread]
          exact hlt _ hin
      | false =>
        obtain ⟨hcells, hno⟩ := hP.failure rfl
        have hp3 : r * 9 + c < m3.cells.length := by rw [hP.length]; omega
        have hstore3 := store_eq m3 (r * 9 + c) 0 hp3
        have hback : m3.cells.set (r * 9 + c) 0 = m.cells := by
          rw [hcells, List.set_set]
          exact set_zero_of_empty _ _ h0
        rw [hback] at hstore3
        simp only [hstore3] at hrun
        rcases List.mem_cons.1 hmem with heq | hin
        · exfalso
          apply hno
          have hcomp := completion_set m.cells s hm r c hr hc hs
          rw [heq] at hcomp
          exact ⟨s, hcomp⟩
        · exact ih hsorted1 ⟨m.cells, (r * 9 + c, 0) :: m3.writes⟩ hm h0 m2 hrun s hs hin

/-- The result of a successful `solve` is, from the cursor on, below every completion of
the input. -/
theorem solve_lex : ∀ (depth : Nat) (m : Mem) (r c : Nat), m.cells.length = 81 → c < 9 →
    r ≤ 9 → 81 - (r * 9 + c) < depth → ∀ m2, solve depth m r c = .done (true, m2) →
    ∀ s, Completion m.cells s → LexFrom (r * 9 + c) m2.cells s := by
  intro depth
  induction depth with
  | zero => intro m r c _ _ _ h; omega
  | succ depth ih =>
    intro m r c hm hc hr hd m2 hrun s hs
    by_cases h9 : r = 9
    · left
      intro k hk1 hk2
      omega
    · obtain ⟨e1, e2, e3⟩ := nextCursor_spec r c hc
      have hp : r * 9 + c < m.cells.length := by omega
      have hread : m.cells[r * 9 + c]? = some m.cells[r * 9 + c] := List.getElem?_eq_getElem hp
      have hnext : ∀ m1 : Mem, m1.cells.length = 81 → ∃ f m3 ws,
          solve depth m1 (nextCursor r c).1 (nextCursor r c).2 = .done (f, m3) ∧
          m3.writes = ws ++ m1.writes ∧
          Post (r * 9 + c + 1) m1.cells f m3.cells ws (¬ ∃ s, Completion m1.cells s) := by
        intro m1 hm1
        have := solve_post depth m1 (nextCursor r c).1 (nextCursor r c).2 hm1 e2 (by omega)
          (by omega)
        rw [e1] at this
        exact this
      have hlex : ∀ m1 m3 : Mem, m1.cells.length = 81 →
          solve depth m1 (nextCursor r c).1 (nextCursor r c).2 = .done (true, m3) →
          ∀ s, Completion m1.cells s → LexFrom (r * 9 + c + 1) m3.cells s := by
        intro m1 m3 hm1 hn s1 hs1
        have := ih m1 (nextCursor r c).1 (nextCursor r c).2 hm1 e2 (by omega) (by omega) m3 hn
          s1 hs1
        rw [e1] at this
        exact this
      rw [solve, if_neg h9] at hrun
      simp only [hread] at hrun
      by_cases h0 : m.cells[r * 9 + c] = 0
      · simp only [h0, ne_eq, not_true_eq_false, if_false] at hrun
        exact tryCandidates_lex _ r c (by omega) hc hnext hlex candidates (by decide) m hm
          (by rw [hread, h0]) m2 hrun s hs
          (mem_candidates.2 (completion_cell m.cells s hs r c (by omega) hc))
      · simp only [ne_eq, h0, not_false_eq_true, if_true] at hrun
        refine (hlex m m2 hm hrun s hs).step ?_
        obtain ⟨f, m3, ws, hn, _, hP⟩ := hnext m hm
        rw [hrun] at hn
        cases hn
        have hne : cellAt m.cells r c ≠ 0 := by
          rw [Ne, cellAt_eq_zero_iff _ r c hp, hread]
          simpa using h0
        have hag := hs.2 r (by omega) c hc hne
        rcases hP.cells (r * 9 + c) with h1 | h1
        · rw [h1, getElem?_of_completion m.cells s hs r c (by omega) hc, hag,
            getElem?_cellAt m.cells r c hp]
        · omega

/-! ## The claims -/

/-- C1: on an 81-cell grid with cells in `0..9`, `solveSudoku` returns, its code is `1`
exactly when the grid has a completion, it is `0` or `1`, and it is `0` both when the grid
has a duplicate and when it has no completion. -/
theorem solveSudoku_iff_completion (g : List Nat) (hg : WellFormed g) (depth : Nat)
    (hdepth : 82 ≤ depth) (w : List (Nat × Nat)) :
    ∃ code m1, solveSudoku depth ⟨g, w⟩ = .done (code, m1) ∧
      (code = 1 ↔ ∃ s, Completion g s) ∧ (code = 0 ∨ code = 1) ∧
      (¬ Distinct g → code = 0) ∧ ((¬ ∃ s, Completion g s) → code = 0) := by
  obtain ⟨t, ht, hiff⟩ := isValidBoard_spec g hg
  cases t with
  | false =>
    have hnd : ¬ Distinct g := fun h => by simpa using hiff.2 h
    refine ⟨0, ⟨g, w⟩, by simp [solveSudoku, ht], ?_, Or.inl rfl, fun _ => rfl, fun _ => rfl⟩
    constructor
    · intro h
      exact absurd h (by decide)
    · rintro ⟨s, hs⟩
      exact absurd (distinct_of_completion g s hs) hnd
  | true =>
    have hd : Distinct g := hiff.1 rfl
    obtain ⟨f, m1, ws, hrun, _, hP⟩ := solve_root depth hdepth g hg.1 w
    cases f with
    | true =>
      refine ⟨1, m1, by simp [solveSudoku, ht, hrun], ?_, Or.inr rfl, fun h => absurd hd h,
        fun h => absurd ⟨m1.cells, hP.completion hg hd⟩ h⟩
      exact ⟨fun _ => ⟨m1.cells, hP.completion hg hd⟩, fun _ => rfl⟩
    | false =>
      refine ⟨0, m1, by simp [solveSudoku, ht, hrun], ?_, Or.inl rfl, fun _ => rfl,
        fun _ => rfl⟩
      constructor
      · intro h
        exact absurd h (by decide)
      · intro h
        exact absurd h (hP.failure rfl).2

theorem solveSudoku_iff_completion_witness :
    WellFormed openGrid ∧ 82 ≤ 82 ∧
    ∃ code m1, solveSudoku 82 ⟨openGrid, []⟩ = .done (code, m1) ∧
      (code = 1 ↔ ∃ s, Completion openGrid s) ∧ (code = 0 ∨ code = 1) ∧
      (¬ Distinct openGrid → code = 0) ∧ ((¬ ∃ s, Completion openGrid s) → code = 0) :=
  ⟨wellFormed_openGrid, le_refl _,
    solveSudoku_iff_completion openGrid wellFormed_openGrid 82 (le_refl _) []⟩

/-- C2: on an 81-cell grid with cells in `0..9`, `isValidBoard` returns `true` exactly when
the non-empty values are pairwise distinct in every row, every column and every 3x3 block,
and `false` exactly when they are not. -/
theorem isValidBoard_iff_distinct (b : List Nat) (hb : WellFormed b) :
    (isValidBoard b = .done true ↔ Distinct b) ∧
    (isValidBoard b = .done false ↔ ¬ Distinct b) := by
  obtain ⟨t, ht, hiff⟩ := isValidBoard_spec b hb
  rw [ht]
  cases t with
  | true =>
    have hd : Distinct b := hiff.1 rfl
    simp [hd]
  | false =>
    have hnd : ¬ Distinct b := fun h => by simpa using hiff.2 h
    simp [hnd]

theorem isValidBoard_iff_distinct_witness :
    WellFormed emptyGrid ∧
    (isValidBoard emptyGrid = .done true ↔ Distinct emptyGrid) ∧
    (isValidBoard emptyGrid = .done false ↔ ¬ Distinct emptyGrid) :=
  ⟨wellFormed_emptyGrid, isValidBoard_iff_distinct emptyGrid wellFormed_emptyGrid⟩

/-- C3: on a grid with cells in `0..9` that passes `isValidBoard`, when `solve` from cursor
`(0, 0)` returns `true` the resulting grid has 81 cells in `1..9`, has no duplicate in any
row, column or block, and holds the input value at every non-empty input cell. -/
theorem solve_true_sound (g : List Nat) (hg : WellFormed g)
    (hvalid : isValidBoard g = .done true) (depth : Nat) (w : List (Nat × Nat)) (m1 : Mem)
    (hrun : solve depth ⟨g, w⟩ 0 0 = .done (true, m1)) :
    m1.cells.length = 81 ∧ Filled m1.cells ∧ Distinct m1.cells ∧ Agrees g m1.cells := by
  have hrun2 := solve_mono depth (max depth 82) (le_max_left _ _) _ 0 0 _ hrun
  obtain ⟨f, m2, ws, hrun3, _, hP⟩ := solve_root (max depth 82) (le_max_right _ _) g hg.1 w
  rw [hrun2] at hrun3
  cases hrun3
  have hc := hP.completion hg (distinct_of_isValidBoard g hg hvalid)
  exact ⟨hc.1.1, hc.1.2.1, hc.1.2.2, hc.2⟩

theorem solve_true_sound_witness :
    WellFormed openGrid ∧ isValidBoard openGrid = .done true ∧
    solve 82 ⟨openGrid, []⟩ 0 0 = .done (true, ⟨solvedGrid, [(80, 2), (79, 4), (78, 6),
      (77, 1), (76, 3), (75, 5), (74, 8), (73, 7), (72, 9)]⟩) ∧
    solvedGrid.length = 81 ∧ Filled solvedGrid ∧ Distinct solvedGrid ∧
      Agrees openGrid solvedGrid :=
  ⟨wellFormed_openGrid, by rfl, by rfl,
    solve_true_sound openGrid wellFormed_openGrid (by rfl) 82 []
      ⟨solvedGrid, [(80, 2), (79, 4), (78, 6), (77, 1), (76, 3), (75, 5), (74, 8), (73, 7),
        (72, 9)]⟩ (by rfl)⟩

/-- C4: on a grid with cells in `0..9` that passes `isValidBoard`, when `solve` from cursor
`(0, 0)` returns `false` the grid has no completion: the search is exhaustive. (The proof
does not use that the grid passes `isValidBoard`.) -/
theorem solve_false_complete (g : List Nat) (hg : WellFormed g)
    (_hvalid : isValidBoard g = .done true) (depth : Nat) (w : List (Nat × Nat)) (m1 : Mem)
    (hrun : solve depth ⟨g, w⟩ 0 0 = .done (false, m1)) :
    ¬ ∃ s, Completion g s := by
  have hrun2 := solve_mono depth (max depth 82) (le_max_left _ _) _ 0 0 _ hrun
  obtain ⟨f, m2, ws, hrun3, _, hP⟩ := solve_root (max depth 82) (le_max_right _ _) g hg.1 w
  rw [hrun2] at hrun3
  cases hrun3
  exact (hP.failure rfl).2

theorem solve_false_complete_witness :
    WellFormed deadEndGrid ∧ isValidBoard deadEndGrid = .done true ∧
    solve 82 ⟨deadEndGrid, []⟩ 0 0 = .done (false, ⟨deadEndGrid, []⟩) ∧
    ¬ ∃ s, Completion deadEndGrid s :=
  ⟨wellFormed_deadEndGrid, by rfl, by rfl,
    solve_false_complete deadEndGrid wellFormed_deadEndGrid (by rfl) 82 []
      ⟨deadEndGrid, []⟩ (by rfl)⟩

/-- C5: on a grid with cells in `0..9`, either `isValidBoard` rejects it and `solveSudoku`
returns `0` with the memory untouched, or `isValidBoard` accepts it and `solveSudoku`
returns the result of `solve` from cursor `(0, 0)`, `true` as `1` and `false` as `0`,
with the memory `solve` left. -/
theorem solveSudoku_composition (g : List Nat) (hg : WellFormed g) (depth : Nat)
    (hdepth : 82 ≤ depth) (w : List (Nat × Nat)) :
    (isValidBoard g = .done false ∧ solveSudoku depth ⟨g, w⟩ = .done (0, ⟨g, w⟩)) ∨
    (isValidBoard g = .done true ∧ ∃ found m1, solve depth ⟨g, w⟩ 0 0 = .done (found, m1) ∧
      solveSudoku depth ⟨g, w⟩ = .done (if found then 1 else 0, m1)) := by
  obtain ⟨t, ht, _⟩ := isValidBoard_spec g hg
  cases t with
  | false => exact Or.inl ⟨ht, by simp [solveSudoku, ht]⟩
  | true =>
    obtain ⟨f, m1, _, hrun, _, _⟩ := solve_root depth hdepth g hg.1 w
    exact Or.inr ⟨ht, f, m1, hrun, by simp [solveSudoku, ht, hrun]⟩

theorem solveSudoku_composition_witness :
    WellFormed twoFivesGrid ∧ 82 ≤ 82 ∧
    ((isValidBoard twoFivesGrid = .done false ∧
      solveSudoku 82 ⟨twoFivesGrid, []⟩
        = .done (0, ⟨twoFivesGrid, []⟩)) ∨
    (isValidBoard twoFivesGrid = .done true ∧
      ∃ found m1, solve 82 ⟨twoFivesGrid, []⟩ 0 0 = .done (found, m1) ∧
      solveSudoku 82 ⟨twoFivesGrid, []⟩
        = .done (if found then 1 else 0, m1))) :=
  ⟨wellFormed_twoFivesGrid, le_refl _,
    solveSudoku_composition twoFivesGrid wellFormed_twoFivesGrid 82 (le_refl _) []⟩

/-- C6: on a grid with cells in `0..9` that has exactly one completion `s`, `solve` from
cursor `(0, 0)` returns `true` and the resulting grid is `s`. -/
theorem solve_unique_completion (g s : List Nat) (hg : WellFormed g) (hs : Completion g s)
    (huniq : ∀ s1, Completion g s1 → s1 = s) (depth : Nat) (hdepth : 82 ≤ depth)
    (w : List (Nat × Nat)) :
    ∃ m1, solve depth ⟨g, w⟩ 0 0 = .done (true, m1) ∧ m1.cells = s := by
  obtain ⟨f, m1, ws, hrun, _, hP⟩ := solve_root depth hdepth g hg.1 w
  cases f with
  | false => exact absurd ⟨s, hs⟩ (hP.failure rfl).2
  | true => exact ⟨m1, hrun, huniq _ (hP.completion hg (distinct_of_completion g s hs))⟩

theorem solve_unique_completion_witness :
    WellFormed openGrid ∧ Completion openGrid solvedGrid ∧
    (∀ s1, Completion openGrid s1 → s1 = solvedGrid) ∧ 82 ≤ 82 ∧
    ∃ m1, solve 82 ⟨openGrid, []⟩ 0 0 = .done (true, m1) ∧ m1.cells = solvedGrid :=
  ⟨wellFormed_openGrid, completion_openGrid, openGrid_unique, le_refl _,
    solve_unique_completion openGrid solvedGrid wellFormed_openGrid completion_openGrid
      openGrid_unique 82 (le_refl _) []⟩

/-- C7: `solve` from cursor `(0, 0)` on a complete valid grid returns `true`, leaves the
grid unchanged and stores nothing; and on the memory that a successful `solve` left, `solve`
returns `true` and leaves that memory as it is. -/
theorem solve_idempotent (depth : Nat) (hdepth : 82 ≤ depth) (g : List Nat)
    (w : List (Nat × Nat)) :
    (Solved g → solve depth ⟨g, w⟩ 0 0 = .done (true, ⟨g, w⟩)) ∧
    (g.length = 81 → ∀ m1, solve depth ⟨g, w⟩ 0 0 = .done (true, m1) →
      solve depth m1 0 0 = .done (true, m1)) := by
  constructor
  · intro hs
    exact solve_full depth ⟨g, w⟩ 0 0 hs.1 (by omega) (by omega) (by omega)
      (fun k _ _ => solved_full g hs k)
  · intro hg m1 hrun
    obtain ⟨f, m2, ws, hrun2, _, hP⟩ := solve_root depth hdepth g hg w
    rw [hrun] at hrun2
    cases hrun2
    exact solve_full depth m1 0 0 hP.length (by omega) (by omega) (by omega)
      (fun k hk1 hk2 => (hP.success rfl).1 k hk1 hk2)

theorem solve_idempotent_witness :
    82 ≤ 82 ∧ solve 82 ⟨solvedGrid, []⟩ 0 0 = .done (true, ⟨solvedGrid, []⟩) ∧
    solve 82 ⟨solvedGrid, [(80, 2), (79, 4), (78, 6), (77, 1), (76, 3), (75, 5), (74, 8),
        (73, 7), (72, 9)]⟩ 0 0
      = .done (true, ⟨solvedGrid, [(80, 2), (79, 4), (78, 6), (77, 1), (76, 3), (75, 5),
        (74, 8), (73, 7), (72, 9)]⟩) :=
  ⟨le_refl _, (solve_idempotent 82 (le_refl _) solvedGrid []).1 solved_solvedGrid,
    (solve_idempotent 82 (le_refl _) openGrid []).2 rfl _ (by rfl)⟩

/-- C8: on the empty grid `solve` from cursor `(0, 0)` returns `true`; the resulting grid
has 81 cells in `1..9`, has no duplicate in any row, column or block, and holds `1` in cell
`(0, 0)`. -/
theorem solve_emptyGrid (depth : Nat) (hdepth : 82 ≤ depth) (w : List (Nat × Nat)) :
    ∃ m1, solve depth ⟨emptyGrid, w⟩ 0 0 = .done (true, m1) ∧ m1.cells.length = 81 ∧
      Filled m1.cells ∧ Distinct m1.cells ∧ cellAt m1.cells 0 0 = 1 := by
  obtain ⟨d, rfl⟩ : ∃ d, depth = d + 1 := ⟨depth - 1, by omega⟩
  have hsafe : isSafe emptyGrid 0 0 1 = .done true := by rfl
  have hstore : store ⟨emptyGrid, w⟩ (0 * 9 + 0) 1
      = .done ⟨emptyGrid.set (0 * 9 + 0) 1, (0 * 9 + 0, 1) :: w⟩ :=
    store_eq ⟨emptyGrid, w⟩ _ 1 (show 0 * 9 + 0 < emptyGrid.length by decide)
  have hg1 : WellFormed (emptyGrid.set (0 * 9 + 0) 1) := by decide
  have hcomp : Completion (emptyGrid.set (0 * 9 + 0) 1) solvedGrid :=
    ⟨solved_solvedGrid, by decide⟩
  obtain ⟨f, m2, ws, hrun, _, hP⟩ := solve_post d
    ⟨emptyGrid.set (0 * 9 + 0) 1, (0 * 9 + 0, 1) :: w⟩ 0 1 hg1.1 (by omega) (by omega) (by omega)
  cases f with
  | false => exact absurd ⟨solvedGrid, hcomp⟩ (hP.failure rfl).2
  | true =>
    have hP0 : Post 0 (emptyGrid.set (0 * 9 + 0) 1) true m2.cells ws _ :=
      hP.skip 1 (by rfl) (by decide)
    have hnc : nextCursor 0 0 = (0, 1) := rfl
    have hread : emptyGrid[0 * 9 + 0]? = some 0 := rfl
    refine ⟨m2, ?_, hP0.length, hP0.filled hg1,
      (hP0.success rfl).2 (distinct_of_completion _ _ hcomp), ?_⟩
    · rw [solve, if_neg (by decide)]
      simp only [hread, hnc, candidates, tryCandidates, hsafe, hstore, hrun, ne_eq,
        not_true_eq_false, if_false]
    · exact hP0.agrees 0 (by omega) 0 (by omega) (by decide)

theorem solve_emptyGrid_witness :
    82 ≤ 82 ∧ ∃ m1, solve 82 ⟨emptyGrid, []⟩ 0 0 = .done (true, m1) ∧ m1.cells.length = 81 ∧
      Filled m1.cells ∧ Distinct m1.cells ∧ cellAt m1.cells 0 0 = 1 :=
  ⟨le_refl _, solve_emptyGrid 82 (le_refl _) []⟩

/-- C9 fails as stated: on the 81-byte grid that holds `10` in cell `(0, 0)` the read
`row[rv]` of `isValidBoard` is outside the 10-entry array. -/
theorem isValidBoard_stray_byte :
    ByteGrid strayByteGrid ∧ isValidBoard strayByteGrid = .fault :=
  ⟨by decide, by rfl⟩

/-- C9, amended: on every 81-cell grid whose cells are in `0..9`, `isValidBoard` returns a
boolean, every access to its presence arrays being in bounds. -/
theorem isValidBoard_total (b : List Nat) (hb : WellFormed b) :
    ∃ t, isValidBoard b = .done t := by
  obtain ⟨t, ht, _⟩ := isValidBoard_spec b hb
  exact ⟨t, ht⟩

theorem isValidBoard_total_witness :
    WellFormed deadEndGrid ∧ ∃ t, isValidBoard deadEndGrid = .done t :=
  ⟨wellFormed_deadEndGrid, isValidBoard_total deadEndGrid wellFormed_deadEndGrid⟩

/-- C10: on an 81-cell grid with cells in `0..9`, `solveSudoku` runs to its end without an
out-of-bounds access in `isValidBoard`, `isSafe` or `solve`; every store it makes is to an
index below 81 and of a value in `0..9`, and the grid it leaves is again an 81-cell grid
with cells in `0..9`. -/
theorem solveSudoku_safe (g : List Nat) (hg : WellFormed g) (depth : Nat) (hdepth : 82 ≤ depth)
    (w : List (Nat × Nat)) :
    ∃ code m1 ws, solveSudoku depth ⟨g, w⟩ = .done (code, m1) ∧ m1.writes = ws ++ w ∧
      (∀ x ∈ ws, x.1 < 81 ∧ x.2 ≤ 9) ∧ WellFormed m1.cells := by
  obtain ⟨t, ht, _⟩ := isValidBoard_spec g hg
  cases t with
  | false => exact ⟨0, ⟨g, w⟩, [], by simp [solveSudoku, ht], rfl, by simp, hg⟩
  | true =>
    obtain ⟨f, m1, ws, hrun, hw, hP⟩ := solve_root depth hdepth g hg.1 w
    refine ⟨if f then 1 else 0, m1, ws, by simp [solveSudoku, ht, hrun], hw, ?_,
      hP.wellFormed hg⟩
    intro x hx
    obtain ⟨_, a2, a3, _⟩ := hP.writes x hx
    exact ⟨a2, a3⟩

theorem solveSudoku_safe_witness :
    WellFormed emptyGrid ∧ 82 ≤ 82 ∧
    ∃ code m1 ws, solveSudoku 82 ⟨emptyGrid, []⟩ = .done (code, m1) ∧ m1.writes = ws ++ [] ∧
      (∀ x ∈ ws, x.1 < 81 ∧ x.2 ≤ 9) ∧ WellFormed m1.cells :=
  ⟨wellFormed_emptyGrid, le_refl _,
    solveSudoku_safe emptyGrid wellFormed_emptyGrid 82 (le_refl _) []⟩

/-- C11: on an 81-cell grid, from any cursor `(r, c)` with `r, c ≤ 8`, or with `r = 9`,
`solve` returns once it is given more than `81 - (r * 9 + c)` stack frames, and with any
larger number of frames it returns the same result; the cursor of the recursive call is at
linear position `r * 9 + c + 1` and again in range, the recursion stops at row 9, and a frame
tries 9 candidates. -/
theorem solve_terminates (m : Mem) (hm : m.cells.length = 81) (r c : Nat)
    (hcur : (r ≤ 8 ∧ c ≤ 8) ∨ r = 9) (depth : Nat) (hdepth : 81 - (r * 9 + c) < depth) :
    (∃ found m1, ∀ d, depth ≤ d → solve d m r c = .done (found, m1)) ∧
    (r ≤ 8 → (nextCursor r c).1 * 9 + (nextCursor r c).2 = r * 9 + c + 1 ∧
      (((nextCursor r c).1 ≤ 8 ∧ (nextCursor r c).2 ≤ 8) ∨ (nextCursor r c).1 = 9)) ∧
    (∀ d m0 c0, solve (d + 1) m0 9 c0 = .done (true, m0)) ∧ candidates.length = 9 := by
  refine ⟨?_, ?_, fun d m0 c0 => solve_base d m0 c0, rfl⟩
  · rcases hcur with ⟨hr, hc⟩ | h9
    · obtain ⟨f, m1, _, hrun, _, _⟩ := solve_post depth m r c hm (by omega) (by omega) hdepth
      exact ⟨f, m1, fun d hd => solve_mono depth d hd m r c _ hrun⟩
    · subst h9
      refine ⟨true, m, fun d hd => ?_⟩
      obtain ⟨d1, rfl⟩ : ∃ d1, d = d1 + 1 := ⟨d - 1, by omega⟩
      exact solve_base d1 m c
  · intro hr
    rcases hcur with ⟨_, hc⟩ | h9
    · obtain ⟨e1, e2, e3⟩ := nextCursor_spec r c (by omega)
      refine ⟨e1, ?_⟩
      omega
    · omega

theorem solve_terminates_witness :
    emptyGrid.length = 81 ∧ ((3 ≤ 8 ∧ 4 ≤ 8) ∨ 3 = 9) ∧ 81 - (3 * 9 + 4) < 51 ∧
    ((∃ found m1, ∀ d, 51 ≤ d → solve d ⟨emptyGrid, []⟩ 3 4 = .done (found, m1)) ∧
    (3 ≤ 8 → (nextCursor 3 4).1 * 9 + (nextCursor 3 4).2 = 3 * 9 + 4 + 1 ∧
      (((nextCursor 3 4).1 ≤ 8 ∧ (nextCursor 3 4).2 ≤ 8) ∨ (nextCursor 3 4).1 = 9)) ∧
    (∀ d m0 c0, solve (d + 1) m0 9 c0 = .done (true, m0)) ∧ candidates.length = 9) :=
  ⟨rfl, by decide, by decide,
    solve_terminates ⟨emptyGrid, []⟩ rfl 3 4 (by decide) 51 (by decide)⟩

/-- C12: on a grid with cells in `0..9` that passes `isValidBoard` and has a completion,
`solve` from cursor `(0, 0)` returns `true`, the resulting grid is a completion of the input,
and it is lexicographically, reading the cells in row-major order, less than or equal to
every completion of the input. -/
theorem solve_lex_least (g : List Nat) (hg : WellFormed g) (hvalid : isValidBoard g = .done true)
    (s0 : List Nat) (hs0 : Completion g s0) (depth : Nat) (hdepth : 82 ≤ depth)
    (w : List (Nat × Nat)) :
    ∃ m1, solve depth ⟨g, w⟩ 0 0 = .done (true, m1) ∧ Completion g m1.cells ∧
      ∀ s, Completion g s → LexLe m1.cells s ∧ m1.cells ≤ s := by
  obtain ⟨f, m1, ws, hrun, _, hP⟩ := solve_root depth hdepth g hg.1 w
  cases f with
  | false => exact absurd ⟨s0, hs0⟩ (hP.failure rfl).2
  | true =>
    refine ⟨m1, hrun, hP.completion hg (distinct_of_isValidBoard g hg hvalid), ?_⟩
    intro s hs
    have h := solve_lex depth ⟨g, w⟩ 0 0 hg.1 (by omega) (by omega) (by omega) m1 hrun s hs
    have hle := lexLe_of_lexFrom hP.length hs.1.1 (by simpa using h)
    exact ⟨hle, le_of_lexLe hP.length hs.1.1 hle⟩

theorem solve_lex_least_witness :
    WellFormed emptyGrid ∧ isValidBoard emptyGrid = .done true ∧
    Completion emptyGrid solvedGrid ∧ 82 ≤ 82 ∧
    ∃ m1, solve 82 ⟨emptyGrid, []⟩ 0 0 = .done (true, m1) ∧ Completion emptyGrid m1.cells ∧
      ∀ s, Completion emptyGrid s → LexLe m1.cells s ∧ m1.cells ≤ s :=
  ⟨wellFormed_emptyGrid, by rfl, by decide, le_refl _,
    solve_lex_least emptyGrid wellFormed_emptyGrid (by rfl) solvedGrid (by decide) 82
      (le_refl _) []⟩

/-- C13: on a grid with cells in `0..9` that passes `isValidBoard`, writing into an empty
cell a digit that `isSafe` accepts gives a grid that passes `isValidBoard`; and the cells
after each store of a run of `solve` from cursor `(0, 0)`, the result among them, have
pairwise distinct non-empty values in every row, column and block. -/
theorem isSafe_keeps_valid (g : List Nat) (hg : WellFormed g)
    (hvalid : isValidBoard g = .done true) :
    (∀ r c v, r ≤ 8 → c ≤ 8 → cellAt g r c = 0 → 1 ≤ v → v ≤ 9 →
      isSafe g r c v = .done true → isValidBoard (g.set (r * 9 + c) v) = .done true) ∧
    (∀ depth w found m1, solve depth ⟨g, w⟩ 0 0 = .done (found, m1) →
      ∃ ws, m1.writes = ws ++ w ∧ m1.cells = replay g ws ∧
        ∀ ws1 ws2, ws = ws1 ++ ws2 → Distinct (replay g ws2)) := by
  have hd := distinct_of_isValidBoard g hg hvalid
  constructor
  · intro r c v hr hc _ _ hv hsafe
    obtain ⟨t, ht, hiff⟩ := isSafe_spec g r c v hg.1 (by omega) (by omega)
    rw [ht] at hsafe
    cases hsafe
    have hd1 := distinct_set g hg.1 r c v (by omega) (by omega) (hiff.1 rfl) hd
    obtain ⟨t1, ht1, hiff1⟩ := isValidBoard_spec _ (wellFormed_set g hg (r * 9 + c) v hv)
    rw [ht1, hiff1.2 hd1]
  · intro depth w found m1 hrun
    obtain ⟨ws, hw, hT⟩ := solve_trail depth ⟨g, w⟩ 0 0 found m1 hg.1 (by omega) (by omega) hd
      hrun
    exact ⟨ws, hw, hT.1, hT.2.2⟩

theorem isSafe_keeps_valid_witness :
    WellFormed openGrid ∧ isValidBoard openGrid = .done true ∧
    isSafe openGrid 8 0 9 = .done true ∧
    solve 82 ⟨openGrid, []⟩ 0 0 = .done (true, ⟨solvedGrid, [(80, 2), (79, 4), (78, 6),
      (77, 1), (76, 3), (75, 5), (74, 8), (73, 7), (72, 9)]⟩) ∧
    ((∀ r c v, r ≤ 8 → c ≤ 8 → cellAt openGrid r c = 0 → 1 ≤ v → v ≤ 9 →
      isSafe openGrid r c v = .done true →
        isValidBoard (openGrid.set (r * 9 + c) v) = .done true) ∧
    (∀ depth w found m1, solve depth ⟨openGrid, w⟩ 0 0 = .done (found, m1) →
      ∃ ws, m1.writes = ws ++ w ∧ m1.cells = replay openGrid ws ∧
        ∀ ws1 ws2, ws = ws1 ++ ws2 → Distinct (replay openGrid ws2))) :=
  ⟨wellFormed_openGrid, by rfl, by rfl, by rfl,
    isSafe_keeps_valid openGrid wellFormed_openGrid (by rfl)⟩

/-- C14: on an 81-cell grid, for a cell `(r, c)` with `r, c ≤ 8` and a digit `v` in `1..9`,
`isSafe` returns `true` exactly when no cell of row `r`, of column `c` or of the block with
origin `(r / 3 * 3, c / 3 * 3)` holds `v`, and `false` otherwise; when cell `(r, c)` is
empty that is exactly that no other cell of the row, column or block holds `v`. -/
theorem isSafe_iff_free (g : List Nat) (hg : g.length = 81) (r c : Nat) (hr : r ≤ 8) (hc : c ≤ 8)
    (v : Nat) (hv : 1 ≤ v ∧ v ≤ 9) :
    (isSafe g r c v = .done true ↔ Free g r c v) ∧
    (isSafe g r c v = .done false ↔ ¬ Free g r c v) ∧
    (cellAt g r c = 0 → (isSafe g r c v = .done true ↔ FreeElsewhere g r c v)) := by
  obtain ⟨t, ht, hiff⟩ := isSafe_spec g r c v hg (by omega) (by omega)
  have h1 : isSafe g r c v = .done true ↔ Free g r c v := by
    rw [ht]
    cases t with
    | true => simp [hiff.1 rfl]
    | false =>
      have : ¬ Free g r c v := fun h => by simpa using hiff.2 h
      simp [this]
  refine ⟨h1, ?_, fun h0 => h1.trans (free_iff_elsewhere g r c v (by omega) h0)⟩
  rw [ht]
  cases t with
  | true => simp [hiff.1 rfl]
  | false =>
    have : ¬ Free g r c v := fun h => by simpa using hiff.2 h
    simp [this]

theorem isSafe_iff_free_witness :
    openGrid.length = 81 ∧ 8 ≤ 8 ∧ 0 ≤ 8 ∧ (1 ≤ 9 ∧ 9 ≤ 9) ∧
    (isSafe openGrid 8 0 9 = .done true ↔ Free openGrid 8 0 9) ∧
    (isSafe openGrid 8 0 9 = .done false ↔ ¬ Free openGrid 8 0 9) ∧
    (cellAt openGrid 8 0 = 0 →
      (isSafe openGrid 8 0 9 = .done true ↔ FreeElsewhere openGrid 8 0 9)) :=
  ⟨rfl, le_refl _, by decide, by decide,
    isSafe_iff_free openGrid rfl 8 0 (le_refl _) (by decide) 9 (by decide)⟩

/-- C15: on an 81-cell grid with cells in `0..9`, valid or not, when `solve` from a cursor
in range returns `false` the cells are those of the input, and every store of the run was
to a cell that is empty in the input; and when `solveSudoku` returns `0` the cells are those
of the input. -/
theorem solve_failure_atomic (g : List Nat) (hg : WellFormed g) (w : List (Nat × Nat)) :
    (∀ r c depth m1, r ≤ 9 → c ≤ 8 → solve depth ⟨g, w⟩ r c = .done (false, m1) →
      m1.cells = g ∧ ∃ ws, m1.writes = ws ++ w ∧ ∀ x ∈ ws, g[x.1]? = some 0) ∧
    (∀ depth code m1, solveSudoku depth ⟨g, w⟩ = .done (code, m1) → code = 0 → m1.cells = g) := by
  constructor
  · intro r c depth m1 hr hc hrun
    obtain ⟨ws, hw, hP⟩ := solve_post_of_run depth ⟨g, w⟩ r c hg.1 (by omega) hr false m1 hrun
    exact ⟨(hP.failure rfl).1, ws, hw, fun x hx => (hP.writes x hx).2.2.2⟩
  · intro depth code m1 hrun hcode
    unfold solveSudoku at hrun
    cases hv : isValidBoard g with
    | fault => simp [hv] at hrun
    | timeout => simp [hv] at hrun
    | done t =>
      cases t with
      | false =>
        simp only [hv, Outcome.done.injEq, Prod.mk.injEq] at hrun
        rw [← hrun.2]
      | true =>
        simp only [hv] at hrun
        cases hs : solve depth ⟨g, w⟩ 0 0 with
        | fault => simp [hs] at hrun
        | timeout => simp [hs] at hrun
        | done x =>
          obtain ⟨f, m2⟩ := x
          simp only [hs, Outcome.done.injEq, Prod.mk.injEq] at hrun
          obtain ⟨h1, h2⟩ := hrun
          subst h2
          cases f with
          | true => simp at h1; omega
          | false =>
            obtain ⟨ws, _, hP⟩ := solve_post_of_run depth ⟨g, w⟩ 0 0 hg.1 (by omega) (by omega)
              false m2 hs
            exact (hP.failure rfl).1

theorem solve_failure_atomic_witness :
    WellFormed deadEndGrid ∧
    solve 82 ⟨deadEndGrid, []⟩ 0 0 = .done (false, ⟨deadEndGrid, []⟩) ∧
    solveSudoku 82 ⟨deadEndGrid, []⟩ = .done (0, ⟨deadEndGrid, []⟩) ∧
    ((∀ r c depth m1, r ≤ 9 → c ≤ 8 → solve depth ⟨deadEndGrid, []⟩ r c = .done (false, m1) →
      m1.cells = deadEndGrid ∧
        ∃ ws, m1.writes = ws ++ [] ∧ ∀ x ∈ ws, deadEndGrid[x.1]? = some 0) ∧
    (∀ depth code m1, solveSudoku depth ⟨deadEndGrid, []⟩ = .done (code, m1) → code = 0 →
      m1.cells = deadEndGrid)) :=
  ⟨wellFormed_deadEndGrid, by rfl, by rfl,
    solve_failure_atomic deadEndGrid wellFormed_deadEndGrid []⟩

/-- C16: `solve` does not validate its input: on the fully-filled grid `dupRowGrid`, which
`isValidBoard` rejects because row 0 holds `1` twice, `solve` from cursor `(0, 0)` returns
`true` and leaves the grid, which is not free of duplicates, as it is. -/
theorem solve_accepts_invalid :
    ∃ g, WellFormed g ∧ isValidBoard g = .done false ∧
      ∃ m1, solve 82 ⟨g, []⟩ 0 0 = .done (true, m1) ∧ ¬ Distinct m1.cells :=
  ⟨dupRowGrid, by decide, by rfl, ⟨dupRowGrid, []⟩, by rfl, by decide⟩

/-- C17: on an 81-cell grid, at a cursor `(r, c)` with `r, c ≤ 8` whose cell is not empty,
`solve` is the call of `solve` at the next cursor, which is at linear position
`r * 9 + c + 1`: same return value, same memory; and no store of the run is to cell
`(r, c)`. -/
theorem solve_skips_filled (m : Mem) (hm : m.cells.length = 81) (r c : Nat) (hr : r ≤ 8)
    (hc : c ≤ 8) (hne : cellAt m.cells r c ≠ 0) (depth : Nat) :
    solve (depth + 1) m r c = solve depth m (nextCursor r c).1 (nextCursor r c).2 ∧
    (nextCursor r c).1 * 9 + (nextCursor r c).2 = r * 9 + c + 1 ∧
    ∀ found m1, solve (depth + 1) m r c = .done (found, m1) →
      ∃ ws, m1.writes = ws ++ m.writes ∧ ∀ x ∈ ws, x.1 ≠ r * 9 + c := by
  obtain ⟨e1, e2, e3⟩ := nextCursor_spec r c (by omega)
  have heq := solve_skip_eq depth m r c hm hr hc hne
  refine ⟨heq, e1, ?_⟩
  intro found m1 hrun
  rw [heq] at hrun
  obtain ⟨ws, hw, hP⟩ := solve_post_of_run depth m _ _ hm e2 (by omega) found m1 hrun
  refine ⟨ws, hw, fun x hx => ?_⟩
  have := (hP.writes x hx).1
  omega

theorem solve_skips_filled_witness :
    openGrid.length = 81 ∧ 7 ≤ 8 ∧ 8 ≤ 8 ∧ cellAt openGrid 7 8 ≠ 0 ∧
    (solve (10 + 1) ⟨openGrid, []⟩ 7 8
        = solve 10 ⟨openGrid, []⟩ (nextCursor 7 8).1 (nextCursor 7 8).2 ∧
    (nextCursor 7 8).1 * 9 + (nextCursor 7 8).2 = 7 * 9 + 8 + 1 ∧
    ∀ found m1, solve (10 + 1) ⟨openGrid, []⟩ 7 8 = .done (found, m1) →
      ∃ ws, m1.writes = ws ++ [] ∧ ∀ x ∈ ws, x.1 ≠ 7 * 9 + 8) :=
  ⟨rfl, by decide, le_refl _, by decide,
    solve_skips_filled ⟨openGrid, []⟩ rfl 7 8 (by decide) (le_refl _) (by decide) 10⟩

/-- C18: for a linear position `p` in `0..80`, `solve` at `(p / 9, p % 9)` reads cell `p`
and recurses at `((p + 1) / 9, (p + 1) % 9)`; for `p ≤ 81` the base case `r = 9` holds
exactly at `p = 81`; and at every `p ≤ 81` `solve` at `(p / 9, p % 9)` computes what the
recursion over linear positions of the specification, `solveLinear`, computes at `p`. -/
theorem solve_refines_linear (p : Nat) (hp : p ≤ 81) :
    (p ≤ 80 → nextCursor (p / 9) (p % 9) = ((p + 1) / 9, (p + 1) % 9) ∧
      p / 9 * 9 + p % 9 = p) ∧
    (p / 9 = 9 ↔ p = 81) ∧
    ∀ depth m, solve depth m (p / 9) (p % 9) = solveLinear depth m p := by
  refine ⟨fun _ => ⟨nextCursor_linear p, by omega⟩, by omega, fun depth m =>
    solve_eq_solveLinear depth m p hp⟩

theorem solve_refines_linear_witness :
    17 ≤ 81 ∧
    ((17 ≤ 80 → nextCursor (17 / 9) (17 % 9) = ((17 + 1) / 9, (17 + 1) % 9) ∧
      17 / 9 * 9 + 17 % 9 = 17) ∧
    (17 / 9 = 9 ↔ 17 = 81) ∧
    ∀ depth m, solve depth m (17 / 9) (17 % 9) = solveLinear depth m 17) :=
  ⟨by decide, solve_refines_linear 17 (by decide)⟩

end Sudoku
